/-
A verification development for a small formal-language toolkit consisting of
two pipelines:

  * `cfg_to_cnf.py` — a context-free-grammar (CFG) to Chomsky-Normal-Form (CNF)
    converter (`CFG`, `CNFConverter.convert_to_cnf` and its stages);
  * `dfa_minimizer.py` — a DFA minimizer (`DFA.minimize`, built from
    `get_accessible_states`, `remove_inaccessible_states`, `refine_partition`
    and `create_minimized_dfa`).

The Python code is shallowly embedded below.  Python `set`s are modelled as
insertion-ordered duplicate-free lists, Python `dict`s as insertion-ordered
association lists (assignment to an existing key updates the entry in place,
assignment to a new key appends it).  Production bodies are Python strings,
i.e. lists of characters: iterating a body yields its characters, and a
character is looked up in the grammar's symbol sets as a one-character string,
exactly as in Python.  Loops whose termination depends on data are given
explicit fuel chosen large enough to reproduce every terminating Python run.
-/
import Mathlib

namespace TestPackage

/-! ## Python containers: insertion-ordered sets and dicts as lists -/

/-- Python `set.add`: append the element unless already present. -/
def setAdd {α : Type} [DecidableEq α] (s : List α) (x : α) : List α :=
  if x ∈ s then s else s ++ [x]

/-- A Python set literal / comprehension built from a list, keeping the first
occurrence of every element. -/
def setOfList {α : Type} [DecidableEq α] (l : List α) : List α :=
  l.foldl setAdd []

/-- Python dict lookup `d[k]` (as an `Option`; a real `KeyError` never occurs
on the runs we reason about). -/
def dlookup {κ ν : Type} [DecidableEq κ] (d : List (κ × ν)) (k : κ) : Option ν :=
  (d.find? (fun e => e.1 = k)).map (·.2)

/-- Python dict assignment `d[k] = v`: update the entry in place if the key is
present, else append a new entry. -/
def dset {κ ν : Type} [DecidableEq κ] (d : List (κ × ν)) (k : κ) (v : ν) : List (κ × ν) :=
  if (d.find? (fun e => e.1 = k)).isSome then
    d.map (fun e => if e.1 = k then (k, v) else e)
  else d ++ [(k, v)]

/-- Python `d[k].append(x)` on a dict of lists (no-op when the key is absent;
on the runs we reason about the key is always present). -/
def dappend {κ ν : Type} [DecidableEq κ] (d : List (κ × List ν)) (k : κ) (x : ν) :
    List (κ × List ν) :=
  d.map (fun e => if e.1 = k then (e.1, e.2 ++ [x]) else e)

/-- `d[k].append(x)` guarded by `if x not in d[k]`. -/
def dappendNew {κ ν : Type} [DecidableEq κ] [DecidableEq ν]
    (d : List (κ × List ν)) (k : κ) (x : ν) : List (κ × List ν) :=
  d.map (fun e => if e.1 = k then (e.1, if x ∈ e.2 then e.2 else e.2 ++ [x]) else e)

/-- The dict comprehension `{k: [] for k in keys}`. -/
def dinit {κ ν : Type} (keys : List κ) : List (κ × List ν) :=
  keys.map (fun k => (k, []))

/-! ## Decimal rendering of naturals

`Nat.repr` is injective; both pipelines synthesize fresh identifiers of the
shape `"X" ++ Nat.repr i` / `"q" ++ Nat.repr i`, and distinctness of those
identifiers matters for correctness of the minimizer's quotient construction.
-/

/-- The decimal digit list of `n`, most significant first. -/
def repDigits (n : Nat) : List Char :=
  if _h : n < 10 then [Nat.digitChar n]
  else repDigits (n / 10) ++ [Nat.digitChar (n % 10)]
decreasing_by exact Nat.div_lt_self (by omega) (by omega)

theorem toDigitsCore_eq_repDigits :
    ∀ (fuel n : Nat) (ds : List Char), n < fuel →
      Nat.toDigitsCore 10 fuel n ds = repDigits n ++ ds := by
  intro fuel
  induction fuel with
  | zero => intro n ds h; omega
  | succ fuel ih =>
    intro n ds h
    rw [Nat.toDigitsCore]
    by_cases h10 : n < 10
    · have hdiv : n / 10 = 0 := Nat.div_eq_of_lt h10
      simp only [hdiv, if_pos rfl]
      have hmod : n % 10 = n := Nat.mod_eq_of_lt h10
      rw [repDigits, dif_pos h10, hmod]
      rfl
    · have hdiv : ¬ n / 10 = 0 := by
        intro h0
        have : n < 10 := (Nat.div_eq_zero_iff (by omega)).mp h0
        omega
      simp only [if_neg hdiv]
      have hlt : n / 10 < fuel := by
        have h1 : n / 10 < n := Nat.div_lt_self (by omega) (by omega)
        omega
      rw [ih (n / 10) _ hlt]
      conv_rhs => rw [repDigits, dif_neg h10]
      simp

/-- Numeric value of a decimal digit character. -/
def charVal (c : Char) : Nat := c.toNat - '0'.toNat

theorem charVal_digitChar {d : Nat} (h : d < 10) : charVal (Nat.digitChar d) = d := by
  interval_cases d <;> decide

/-- Decode a decimal digit list back to a natural number. -/
def decodeDigits (l : List Char) : Nat :=
  l.foldl (fun a c => a * 10 + charVal c) 0

theorem decodeDigits_eq_foldl (l : List Char) (a : Nat) :
    l.foldl (fun a c => a * 10 + charVal c) a =
      a * 10 ^ l.length + decodeDigits l := by
  induction l generalizing a with
  | nil => simp [decodeDigits]
  | cons c l ih =>
    simp only [List.foldl_cons, decodeDigits, List.length_cons]
    rw [ih (a * 10 + charVal c), ih (0 * 10 + charVal c)]
    ring

theorem decodeDigits_append (xs ys : List Char) :
    decodeDigits (xs ++ ys) = decodeDigits xs * 10 ^ ys.length + decodeDigits ys := by
  unfold decodeDigits
  rw [List.foldl_append]
  rw [decodeDigits_eq_foldl]
  rfl

theorem decodeDigits_repDigits (n : Nat) : decodeDigits (repDigits n) = n := by
  induction n using Nat.strong_induction_on with
  | _ n ih =>
    by_cases h : n < 10
    · rw [repDigits, dif_pos h]
      simp [decodeDigits, charVal_digitChar h]
    · rw [repDigits, dif_neg h]
      rw [decodeDigits_append]
      have hdiv : n / 10 < n := Nat.div_lt_self (by omega) (by omega)
      rw [ih (n / 10) hdiv]
      simp [decodeDigits, charVal_digitChar (Nat.mod_lt n (by omega : (0:Nat) < 10))]
      omega

theorem repr_data_eq (n : Nat) : (Nat.repr n).data = repDigits n := by
  show (Nat.toDigits 10 n).asString.data = repDigits n
  rw [Nat.toDigits, toDigitsCore_eq_repDigits (n+1) n [] (Nat.lt_succ_self n)]
  simp [List.asString]

theorem nat_repr_injective : Function.Injective Nat.repr := by
  intro m n h
  have hd : (Nat.repr m).data = (Nat.repr n).data := by rw [h]
  rw [repr_data_eq, repr_data_eq] at hd
  calc m = decodeDigits (repDigits m) := (decodeDigits_repDigits m).symm
    _ = decodeDigits (repDigits n) := by rw [hd]
    _ = n := decodeDigits_repDigits n

theorem append_repr_injective (p : String) {i j : Nat}
    (h : p ++ Nat.repr i = p ++ Nat.repr j) : i = j := by
  apply nat_repr_injective
  have hd : (p ++ Nat.repr i).data = (p ++ Nat.repr j).data := by rw [h]
  simp only [String.data_append] at hd
  have := List.append_cancel_left hd
  exact String.ext this

/-! ## The DFA model (`dfa_minimizer.py`)

States and alphabet symbols are Python strings; `transitions` is the dict
mapping `(state, symbol)` pairs to successor states, embedded as an
association list (Python dicts cannot hold duplicate keys, which appears as a
`Nodup` hypothesis where it matters). -/

structure DFA where
  states : List String
  alphabet : List String
  transitions : List ((String × String) × String)
  start_state : String
  final_states : List String
deriving DecidableEq, Repr

/-- `(state, symbol) in transitions` / `transitions[(state, symbol)]`. -/
def tlookup (trans : List ((String × String) × String)) (q c : String) : Option String :=
  (trans.find? (fun e => e.1 = (q, c))).map (·.2)

/-- All successor states mentioned in the transition dict. -/
def targetsOf (trans : List ((String × String) × String)) : List String :=
  trans.map (·.2)

theorem tlookup_mem_targets {trans : List ((String × String) × String)} {q c y : String}
    (h : tlookup trans q c = some y) : y ∈ targetsOf trans := by
  unfold tlookup at h
  cases hf : trans.find? (fun e => e.1 = (q, c)) with
  | none => rw [hf] at h; simp at h
  | some e =>
    rw [hf] at h
    simp only [Option.map] at h
    injection h with h
    have : e ∈ trans := List.mem_of_find?_eq_some hf
    rw [← h]
    exact List.mem_map_of_mem _ this

/-- The body of the BFS `while` loop of `get_accessible_states`: process one
dequeued state, scanning the alphabet in order and appending newly discovered
successors to both the accessible set and the queue. -/
def bfsStep (trans : List ((String × String) × String)) (alphabet : List String)
    (state : String) (p : List String × List String) : List String × List String :=
  alphabet.foldl (fun p symbol =>
    match tlookup trans state symbol with
    | some nxt => if nxt ∈ p.1 then p else (p.1 ++ [nxt], p.2 ++ [nxt])
    | none => p) p

theorem bfsStep_nil (trans : List ((String × String) × String)) (state : String)
    (p : List String × List String) : bfsStep trans [] state p = p := rfl

theorem bfsStep_cons (trans : List ((String × String) × String)) (a : String)
    (rest : List String) (state : String) (p : List String × List String) :
    bfsStep trans (a :: rest) state p =
      bfsStep trans rest state
        (match tlookup trans state a with
         | some nxt => if nxt ∈ p.1 then p else (p.1 ++ [nxt], p.2 ++ [nxt])
         | none => p) := rfl

theorem bfsStep_spec (trans : List ((String × String) × String)) (alphabet : List String)
    (state : String) (acc queue : List String) :
    ∃ Δ, (bfsStep trans alphabet state (acc, queue)).1 = acc ++ Δ ∧
      (bfsStep trans alphabet state (acc, queue)).2 = queue ++ Δ ∧
      Δ.Nodup ∧
      ∀ x ∈ Δ, x ∉ acc ∧ ∃ sym ∈ alphabet, tlookup trans state sym = some x := by
  induction alphabet generalizing acc queue with
  | nil =>
    refine ⟨[], ?_, ?_, List.nodup_nil, by simp⟩
    · rw [bfsStep_nil]; simp
    · rw [bfsStep_nil]; simp
  | cons a rest ih =>
    rw [bfsStep_cons]
    cases hl : tlookup trans state a with
    | none =>
      simp only [hl]
      obtain ⟨Δ, h1, h2, h3, h4⟩ := ih acc queue
      exact ⟨Δ, h1, h2, h3, fun x hx => ⟨(h4 x hx).1, by
        obtain ⟨sym, hs1, hs2⟩ := (h4 x hx).2
        exact ⟨sym, List.mem_cons_of_mem _ hs1, hs2⟩⟩⟩
    | some nxt =>
      simp only [hl]
      by_cases hmem : nxt ∈ acc
      · simp only [if_pos hmem]
        obtain ⟨Δ, h1, h2, h3, h4⟩ := ih acc queue
        exact ⟨Δ, h1, h2, h3, fun x hx => ⟨(h4 x hx).1, by
          obtain ⟨sym, hs1, hs2⟩ := (h4 x hx).2
          exact ⟨sym, List.mem_cons_of_mem _ hs1, hs2⟩⟩⟩
      · simp only [if_neg hmem]
        obtain ⟨Δ, h1, h2, h3, h4⟩ := ih (acc ++ [nxt]) (queue ++ [nxt])
        refine ⟨nxt :: Δ, ?_, ?_, ?_, ?_⟩
        · rw [h1]; simp
        · rw [h2]; simp
        · refine List.nodup_cons.mpr ⟨?_, h3⟩
          intro hc
          exact (h4 nxt hc).1 (by simp)
        · intro x hx
          rcases List.mem_cons.mp hx with h | h
          · subst h
            exact ⟨hmem, a, List.mem_cons_self a rest, hl⟩
          · refine ⟨fun hc => (h4 x h).1 (by simp [hc]), ?_⟩
            obtain ⟨sym, hs1, hs2⟩ := (h4 x h).2
            exact ⟨sym, List.mem_cons_of_mem _ hs1, hs2⟩

/-- The BFS `while` loop of `get_accessible_states`, with explicit fuel.  The
measure `|targets \ accessible| + |queue|` strictly decreases on every
iteration (`bfsLoop_measure_lt` below), so the fuel used in
`get_accessible_states` covers every Python run. -/
def bfsLoop (trans : List ((String × String) × String)) (alphabet : List String) :
    Nat → List String → List String → List String
  | 0, acc, _ => acc
  | _ + 1, acc, [] => acc
  | fuel + 1, acc, state :: rest =>
      bfsLoop trans alphabet fuel (bfsStep trans alphabet state (acc, rest)).1
        (bfsStep trans alphabet state (acc, rest)).2

/-- The BFS termination measure. -/
def bfsMeasure (trans : List ((String × String) × String))
    (acc queue : List String) : Nat :=
  ((targetsOf trans).toFinset \ acc.toFinset).card + queue.length

theorem bfsLoop_measure_lt (trans : List ((String × String) × String))
    (alphabet : List String) (state : String) (acc rest : List String) :
    bfsMeasure trans (bfsStep trans alphabet state (acc, rest)).1
        (bfsStep trans alphabet state (acc, rest)).2 <
      bfsMeasure trans acc (state :: rest) := by
  obtain ⟨Δ, h1, h2, hnd, hmem⟩ := bfsStep_spec trans alphabet state acc rest
  rw [bfsMeasure, bfsMeasure, h1, h2]
  have hsub : Δ.toFinset ⊆ (targetsOf trans).toFinset \ acc.toFinset := by
    intro x hx
    rw [List.mem_toFinset] at hx
    rcases hmem x hx with ⟨hnacc, sym, _, hl⟩
    rw [Finset.mem_sdiff, List.mem_toFinset, List.mem_toFinset]
    exact ⟨tlookup_mem_targets hl, hnacc⟩
  have hcardΔ : Δ.toFinset.card = Δ.length := List.toFinset_card_of_nodup hnd
  have hkey : ((targetsOf trans).toFinset \ (acc ++ Δ).toFinset).card =
      ((targetsOf trans).toFinset \ acc.toFinset).card - Δ.length := by
    have hsplit : (targetsOf trans).toFinset \ (acc.toFinset ∪ Δ.toFinset) =
        ((targetsOf trans).toFinset \ acc.toFinset) \ Δ.toFinset := by
      ext x
      simp only [Finset.mem_sdiff, Finset.mem_union]
      tauto
    rw [List.toFinset_append, hsplit, Finset.card_sdiff hsub, hcardΔ]
  have hle : Δ.length ≤ ((targetsOf trans).toFinset \ acc.toFinset).card := by
    rw [← hcardΔ]; exact Finset.card_le_card hsub
  rw [hkey]
  simp only [List.length_append, List.length_cons]
  omega

/-- `DFA.get_accessible_states`: breadth-first collection of the states
reachable from the start state via transitions on alphabet symbols. -/
def get_accessible_states (d : DFA) : List String :=
  bfsLoop d.transitions d.alphabet (d.transitions.length + 2)
    [d.start_state] [d.start_state]

/-- `DFA.remove_inaccessible_states`. -/
def remove_inaccessible_states (d : DFA) : DFA :=
  let accessible := get_accessible_states d
  { states := accessible
    alphabet := d.alphabet
    transitions := d.transitions.filter
      (fun e => decide (e.1.1 ∈ accessible ∧ e.2 ∈ accessible))
    start_state := d.start_state
    final_states := d.final_states.filter (fun s => decide (s ∈ accessible)) }

/-- Index of the first partition group containing `x` (the `enumerate`/`break`
search in `refine_partition`), `none` when no group contains it. -/
def groupIdx : List (List String) → String → Option Nat
  | [], _ => none
  | g :: gs, x => if x ∈ g then some 0 else (groupIdx gs x).map (· + 1)

/-- The signature of a state with respect to the current partition: for each
alphabet symbol in order, the index of the group containing the successor, or
`-1` when no transition is defined (when a successor lies in no group, Python
appends nothing for that symbol). -/
def signature (d : DFA) (pt : List (List String)) (state : String) :
    List (String × Int) :=
  d.alphabet.foldl (fun sig symbol =>
    match tlookup d.transitions state symbol with
    | some nxt =>
      match groupIdx pt nxt with
      | some i => sig ++ [(symbol, (i : Int))]
      | none => sig
    | none => sig ++ [(symbol, (-1 : Int))]) []

/-- Insert a state into the signature-keyed `subgroups` dict. -/
def addToSubgroups (sgs : List (List (String × Int) × List String))
    (sig : List (String × Int)) (state : String) :
    List (List (String × Int) × List String) :=
  if (sgs.find? (fun e => e.1 = sig)).isSome then
    sgs.map (fun e => if e.1 = sig then (e.1, setAdd e.2 state) else e)
  else sgs ++ [(sig, [state])]

/-- Split one partition group into its signature classes. -/
def refineGroup (d : DFA) (pt : List (List String)) (group : List String) :
    List (List (String × Int) × List String) :=
  group.foldl (fun sgs state => addToSubgroups sgs (signature d pt state) state) []

/-- `refine_partition`: split every group of the partition by state signature. -/
def refine_partition (d : DFA) (pt : List (List String)) : List (List String) :=
  pt.foldl (fun result g => result ++ (refineGroup d pt g).map (·.2)) []

/-- Python `==` on two lists of sets: pointwise set equality. -/
def groupEq (a b : List String) : Bool :=
  a.all (fun x => decide (x ∈ b)) && b.all (fun x => decide (x ∈ a))

def partitionEq (p q : List (List String)) : Bool :=
  decide (p.length = q.length) && (p.zip q).all (fun e => groupEq e.1 e.2)

/-- The refinement `while` loop of `minimize`, with explicit fuel.  In
`minimize` the fuel `|states| + 1` covers every Python run: each pass that
changes the partition strictly increases the number of groups, which is
bounded by the number of states. -/
def refineLoop (d : DFA) : Nat → List (List String) → List (List String)
  | 0, pt => pt
  | fuel + 1, pt =>
    let new := refine_partition d pt
    if partitionEq new pt then pt else refineLoop d fuel new

/-- The `state_map` dict of `create_minimized_dfa`: group `i`'s members map to
the synthesized representative `"q" ++ Nat.repr i`. -/
def state_map (pt : List (List String)) : List (String × String) :=
  pt.enum.foldl (fun m e => e.2.foldl (fun m s => dset m s ("q" ++ Nat.repr e.1)) m) []

/-- Total lookup into `state_map` (in `minimize` every state of the pruned
automaton lies in some group, so the default is never used). -/
def smap (pt : List (List String)) (s : String) : String :=
  (dlookup (state_map pt) s).getD ""

/-- `create_minimized_dfa`: quotient the automaton by the final partition. -/
def create_minimized_dfa (d : DFA) (pt : List (List String)) : DFA :=
  { states := setOfList (d.states.map (smap pt))
    alphabet := d.alphabet
    transitions := d.transitions.foldl
      (fun nt e => dset nt (smap pt e.1.1, e.1.2) (smap pt e.2)) []
    start_state := smap pt d.start_state
    final_states := setOfList (d.final_states.map (smap pt)) }

/-- The partition-refinement phase of `minimize` on the (already pruned)
automaton: initial accepting/non-accepting split (omitting empty groups),
refined to a fixpoint. -/
def minimize_partition (dfa : DFA) : List (List String) :=
  let accepting := dfa.final_states
  let non_accepting := dfa.states.filter (fun s => decide (s ∉ accepting))
  refineLoop dfa (dfa.states.length + 1)
    ((if accepting.isEmpty then [] else [accepting]) ++
      (if non_accepting.isEmpty then [] else [non_accepting]))

def minimize (d : DFA) : DFA :=
  let dfa := remove_inaccessible_states d
  if dfa.states.length ≤ 1 then dfa
  else create_minimized_dfa dfa (minimize_partition dfa)

/-- Run of a DFA from a given state on an input string; `none` when a
transition is missing (the run semantics of the repository's test helper
`accepts`). -/
def runFrom (d : DFA) : String → List String → Option String
  | q, [] => some q
  | q, c :: rest =>
    match tlookup d.transitions q c with
    | none => none
    | some q' => runFrom d q' rest

/-- Acceptance of an input string: the run from the start state must complete
and end in a final state. -/
def accepts (d : DFA) (s : List String) : Bool :=
  match runFrom d d.start_state s with
  | none => false
  | some q => decide (q ∈ d.final_states)

/-- The states reachable from the start state via defined transitions on
alphabet symbols. -/
inductive Reachable (d : DFA) : String → Prop
  | start : Reachable d d.start_state
  | step {q sym q'} : Reachable d q → sym ∈ d.alphabet →
      tlookup d.transitions q sym = some q' → Reachable d q'

/-! ## The CFG model (`cfg_to_cnf.py`)

A production body is a Python string, i.e. a list of characters; iterating a
body yields its characters, and a character `c` is looked up in the grammar's
symbol sets as the one-character string `charStr c`, exactly as in Python.
The converter object carries the grammar it was initialized with, the fresh
variable counter and the terminal-to-variable map; methods that mutate the
converter return the updated converter. -/

/-- A Python character is a one-character string. -/
def charStr (c : Char) : String := String.mk [c]

structure CFG where
  variables' : List String
  terminals : List String
  productions : List (String × List (List Char))
  start_symbol : String
deriving DecidableEq, Repr

structure CNFConverter where
  cfg : CFG
  new_var_counter : Nat
  terminal_to_var : List (String × String)
deriving DecidableEq, Repr

/-- `CNFConverter(cfg)`. -/
def mkConverter (g : CFG) : CNFConverter := ⟨g, 0, []⟩

/-- The check-and-increment loop of `generate_new_variable`.  The fuel
`|variables| + 1` always suffices: the candidate names `"X" ++ Nat.repr c` are
pairwise distinct, so at most `|variables|` of them can be taken. -/
def genVarAux (vars : List String) : Nat → Nat → String × Nat
  | 0, counter => ("X" ++ Nat.repr counter, counter + 1)
  | fuel + 1, counter =>
    let new_var := "X" ++ Nat.repr counter
    if new_var ∈ vars then genVarAux vars fuel (counter + 1)
    else (new_var, counter + 1)

/-- `CNFConverter.generate_new_variable` (freshness is checked against the
converter's `cfg.variables'`, not against any local variable set). -/
def generate_new_variable (conv : CNFConverter) : String × CNFConverter :=
  let r := genVarAux conv.cfg.variables' (conv.cfg.variables'.length + 1) conv.new_var_counter
  (r.1, { conv with new_var_counter := r.2 })

/-- One pass of the nullable-set fixpoint loop. -/
def nullablePass (prods : List (String × List (List Char))) (nl : List String) :
    List String :=
  prods.foldl (fun nl e =>
    if e.1 ∈ nl then nl
    else if [] ∈ e.2 then nl ++ [e.1]
    else if e.2.any (fun b => b.all (fun c => decide (charStr c ∈ nl))) then nl ++ [e.1]
    else nl) nl

/-- The nullable-set fixpoint loop, with fuel.  Every effective pass adds at
least one production key, so `|productions| + 1` passes always reach the
fixpoint. -/
def nullableFix (prods : List (String × List (List Char))) :
    Nat → List String → List String
  | 0, nl => nl
  | fuel + 1, nl =>
    let nl' := nullablePass prods nl
    if nl' = nl then nl else nullableFix prods fuel nl'

def nullableSet (prods : List (String × List (List Char))) : List String :=
  nullableFix prods (prods.length + 1) []

/-- The positions of `prod` whose bit is set in `i` (`omit` in the source). -/
def omitSet (i : Nat) (nullable_indices : List Nat) : List Nat :=
  nullable_indices.enum.filterMap
    (fun e => if (i >>> e.1) % 2 = 1 then some e.2 else none)

/-- The body obtained by deleting the positions in `omit`. -/
def newProd (prod : List Char) (omitted : List Nat) : List Char :=
  prod.enum.filterMap (fun e => if e.1 ∈ omitted then none else some e.2)

/-- The nullable positions of a body. -/
def nullableIndices (nullable : List String) (prod : List Char) : List Nat :=
  prod.enum.filterMap (fun ic => if charStr ic.2 ∈ nullable then some ic.1 else none)

/-- The per-body subset enumeration of epsilon elimination: emit every variant
of `prod` with a subset of its nullable positions deleted, skipping the empty
variant and duplicates. -/
def epsBodyStep (nullable : List String) (v : String)
    (np : List (String × List (List Char))) (prod : List Char) :
    List (String × List (List Char)) :=
  if prod = [] then np
  else
    (List.range (2 ^ (nullableIndices nullable prod).length)).foldl (fun np i =>
      if newProd prod (omitSet i (nullableIndices nullable prod)) ≠ [] ∧
          newProd prod (omitSet i (nullableIndices nullable prod))
            ∉ (dlookup np v).getD [] then
        dappend np v (newProd prod (omitSet i (nullableIndices nullable prod)))
      else np) np

/-- The production-generation loop of epsilon elimination. -/
def epsNewProductions (prods : List (String × List (List Char)))
    (vars : List String) (nullable : List String) :
    List (String × List (List Char)) :=
  prods.foldl (fun np e => e.2.foldl (epsBodyStep nullable e.1) np) (dinit vars)

/-- `CNFConverter.eliminate_epsilon_productions`.  Returns the new grammar and
the updated converter; when the start symbol is nullable the converter's own
`cfg.variables` set gains the synthesized start variable (the Python code
mutates the shared set object in place). -/
def eliminate_epsilon_productions (conv : CNFConverter) : CFG × CNFConverter :=
  let nullable := nullableSet conv.cfg.productions
  let new_productions :=
    epsNewProductions conv.cfg.productions conv.cfg.variables' nullable
  if conv.cfg.start_symbol ∈ nullable then
    let r := generate_new_variable conv
    let new_start := r.1
    let new_productions₂ := dset new_productions new_start [[], conv.cfg.start_symbol.data]
    let newVars := setAdd r.2.cfg.variables' new_start
    let conv₂ := { r.2 with cfg := { r.2.cfg with variables' := newVars } }
    (⟨newVars, conv.cfg.terminals, new_productions₂, new_start⟩, conv₂)
  else
    (⟨conv.cfg.variables', conv.cfg.terminals, new_productions, conv.cfg.start_symbol⟩, conv)

/-- One pass of the unit-pair closure loop.  `list(unit_pairs[A])` snapshots
`A`'s current set before the inner loop, while the membership test reads the
live dict. -/
def unitPass (vars : List String) (prods : List (String × List (List Char)))
    (up : List (String × List String)) : List (String × List String) :=
  vars.foldl (fun up A =>
    ((dlookup up A).getD []).foldl (fun up B =>
      ((dlookup prods B).getD []).foldl (fun up prod =>
        if String.mk prod ∈ vars ∧ String.mk prod ∉ (dlookup up A).getD [] then
          dappend up A (String.mk prod)
        else up) up) up) up

/-- The unit-pair closure loop, with fuel; every effective pass adds at least
one pair out of at most `|vars|²` possible ones. -/
def unitFix (vars : List String) (prods : List (String × List (List Char))) :
    Nat → List (String × List String) → List (String × List String)
  | 0, up => up
  | fuel + 1, up =>
    let up' := unitPass vars prods up
    if up' = up then up else unitFix vars prods fuel up'

/-- `CNFConverter.eliminate_unit_productions` (reads the converter's own
`cfg`; does not mutate the converter). -/
def eliminate_unit_productions (conv : CNFConverter) : CFG :=
  let vars := conv.cfg.variables'
  let prods := conv.cfg.productions
  let unit_pairs := unitFix vars prods (vars.length * vars.length + 1)
    (vars.map (fun v => (v, [v])))
  let new_productions :=
    vars.foldl (fun np A =>
      ((dlookup unit_pairs A).getD []).foldl (fun np B =>
        ((dlookup prods B).getD []).foldl (fun np prod =>
          if String.mk prod ∈ vars then np
          else if prod ∉ (dlookup np A).getD [] then dappend np A prod
          else np) np) np)
      (dinit vars)
  ⟨vars, conv.cfg.terminals, new_productions, conv.cfg.start_symbol⟩

/-- The grammar produced by the first two stages as `convert_to_cnf` actually
runs them: the epsilon-elimination *result* is discarded (only the converter's
side effects survive), and unit elimination is applied to the converter's
original grammar. -/
def stage2_grammar (conv : CNFConverter) : CFG :=
  eliminate_unit_productions (eliminate_epsilon_productions conv).2

/-- Is a body already in CNF-compatible shape for stage 3
(`len(prod) <= 1 or (len(prod) == 2 and prod[0] in variables and
prod[1] in variables)`)? -/
def isCNFish (vars : List String) (prod : List Char) : Bool :=
  match prod with
  | [] => true
  | [_] => true
  | [c1, c2] => decide (charStr c1 ∈ vars) && decide (charStr c2 ∈ vars)
  | _ => false

/-- The mutable state threaded through stages 3 and 4: the local `variables`
set, the current productions dict, and the converter (counter and
terminal-to-variable map). -/
structure PState where
  vars : List String
  prods : List (String × List (List Char))
  conv : CNFConverter
deriving DecidableEq, Repr

/-- Process one character of a body in stage 3's terminal-replacement loop. -/
def replaceTerminalChar (terminals : List String) (st : PState) (np : List Char)
    (c : Char) : PState × List Char :=
  if charStr c ∈ terminals then
    match dlookup st.conv.terminal_to_var (charStr c) with
    | some tv => (st, np ++ tv.data)
    | none =>
      let r := generate_new_variable st.conv
      let conv₂ := { r.2 with
        terminal_to_var := dset r.2.terminal_to_var (charStr c) r.1 }
      (⟨setAdd st.vars r.1, dset st.prods r.1 [[c]], conv₂⟩, np ++ r.1.data)
  else (st, np ++ [c])

/-- Stage 3's per-body terminal replacement. -/
def replaceBody (terminals : List String) (st : PState) (prod : List Char) :
    PState × List Char :=
  prod.foldl (fun p c => replaceTerminalChar terminals p.1 p.2 c) (st, [])

/-- Stage 3's per-variable loop: collect the replaced bodies of the non-CNF
productions, then append those not already present. -/
def step3Var (terminals : List String) (st : PState)
    (e : String × List (List Char)) : PState :=
  let r := e.2.foldl (fun (p : PState × List (List Char)) prod =>
      if isCNFish p.1.vars prod then p
      else
        let q := replaceBody terminals p.1 prod
        (q.1, p.2 ++ [q.2])) (st, [])
  r.2.foldl (fun st prod =>
    if prod ∈ (dlookup st.prods e.1).getD [] then st
    else { st with prods := dappend st.prods e.1 prod }) r.1

/-- Stage 3 (terminal isolation) of `convert_to_cnf`.  The original bodies are
copied into the working dict first and are never removed, so a non-CNF body
survives alongside its replacement. -/
def step3 (cfg : CFG) (conv : CNFConverter) : PState :=
  cfg.productions.foldl (fun st e => step3Var cfg.terminals st e)
    ⟨cfg.variables', cfg.productions.foldl (fun ps e => dset ps e.1 e.2) (dinit cfg.variables'),
      conv⟩

/-- The mutable state of stage 4's chain-building loop. -/
structure S4 where
  vars : List String
  final : List (String × List (List Char))
  conv : CNFConverter
  current_var : String
  prev_var : String
deriving DecidableEq, Repr

/-- Stage 4's chain-building loop for one body of length `> 2`.  At `i = 0`
the appended body is `prod[0] + next_var`; at `i ≥ 1` it is
`prev_var + next_var` (the source drops the body's intermediate symbols); at
`i = len(prod) - 3` the last fresh variable receives `prod[-2] + prod[-1]`. -/
def binarize (var : String) (prod : List Char) (vars : List String)
    (final : List (String × List (List Char))) (conv : CNFConverter) :
    List String × List (String × List (List Char)) × CNFConverter :=
  let n := prod.length
  let s := (List.range (n - 2)).foldl (fun (s : S4) i =>
    let r := generate_new_variable s.conv
    let next_var := r.1
    let vars₂ := setAdd s.vars next_var
    let final₁ := dset s.final next_var []
    let final₂ :=
      if i = 0 then dappend final₁ s.current_var (prod.headD ' ' :: next_var.data)
      else dappend final₁ s.current_var (s.prev_var.data ++ next_var.data)
    let final₃ :=
      if i = n - 3 then
        dappend final₂ next_var [prod.getD (n - 2) ' ', prod.getD (n - 1) ' ']
      else final₂
    ⟨vars₂, final₃, r.2, next_var, next_var⟩)
    ⟨vars, final, conv, var, ""⟩
  (s.vars, s.final, s.conv)

/-- Stage 4 (binarization) of `convert_to_cnf`: bodies of length `≤ 2` are
copied (deduplicated), longer bodies are chain-rewritten character by
character. -/
def step4 (st : PState) :
    List String × List (String × List (List Char)) × CNFConverter :=
  st.prods.foldl (fun s e =>
    e.2.foldl (fun (s : List String × List (String × List (List Char)) × CNFConverter) prod =>
      if prod.length ≤ 2 then
        if prod ∈ (dlookup s.2.1 e.1).getD [] then s
        else (s.1, dappend s.2.1 e.1 prod, s.2.2)
      else binarize e.1 prod s.1 s.2.1 s.2.2) s)
    (st.vars, dinit st.vars, st.conv)

/-- `CNFConverter.convert_to_cnf`: the four stages as the source actually
composes them.  Returns the produced grammar together with the final converter
state (whose `cfg` is the caller's grammar object, mutated when stage 1
synthesized a new start variable). -/
def convert_to_cnf (conv : CNFConverter) : CFG × CNFConverter :=
  let conv₁ := (eliminate_epsilon_productions conv).2
  let cfg := eliminate_unit_productions conv₁
  let st₃ := step3 cfg conv₁
  let s₄ := step4 st₃
  (⟨s₄.1, cfg.terminals, s₄.2.1, cfg.start_symbol⟩, s₄.2.2)

/-! ## Correctness of the breadth-first accessibility computation -/

theorem bfsStep_mono (trans : List ((String × String) × String)) (alphabet : List String)
    (state : String) (acc queue : List String) :
    acc ⊆ (bfsStep trans alphabet state (acc, queue)).1 := by
  obtain ⟨Δ, h1, _, _, _⟩ := bfsStep_spec trans alphabet state acc queue
  rw [h1]
  exact List.subset_append_left _ _

theorem bfsStep_closure (trans : List ((String × String) × String))
    (alphabet : List String) (state : String) (acc queue : List String)
    {sym y : String} (hsym : sym ∈ alphabet) (hy : tlookup trans state sym = some y) :
    y ∈ (bfsStep trans alphabet state (acc, queue)).1 := by
  induction alphabet generalizing acc queue with
  | nil => cases hsym
  | cons a rest ih =>
    rw [bfsStep_cons]
    rcases List.mem_cons.mp hsym with heq | hmem
    · subst heq
      rw [hy]
      simp only
      by_cases hin : y ∈ acc
      · rw [if_pos hin]
        rcases rest with _ | ⟨b, rest⟩
        · exact hin
        · exact bfsStep_mono trans _ state acc queue hin
      · rw [if_neg hin]
        rcases rest with _ | ⟨b, rest⟩
        · simp [bfsStep_nil]
        · exact bfsStep_mono trans _ state (acc ++ [y]) (queue ++ [y]) (by simp)
    · cases hl : tlookup trans state a with
      | none => simp only [hl]; exact ih acc queue hmem
      | some nxt =>
        simp only [hl]
        by_cases hin : nxt ∈ acc
        · rw [if_pos hin]; exact ih acc queue hmem
        · rw [if_neg hin]; exact ih (acc ++ [nxt]) (queue ++ [nxt]) hmem

theorem bfsLoop_sound (trans : List ((String × String) × String))
    (alphabet : List String) (R : String → Prop)
    (hR : ∀ q, R q → ∀ sym ∈ alphabet, ∀ y, tlookup trans q sym = some y → R y) :
    ∀ (fuel : Nat) (acc queue : List String), (∀ x ∈ acc, R x) → (∀ x ∈ queue, R x) →
      ∀ x ∈ bfsLoop trans alphabet fuel acc queue, R x := by
  intro fuel
  induction fuel with
  | zero => intro acc queue hacc _ x hx; exact hacc x hx
  | succ fuel ih =>
    intro acc queue hacc hqueue x hx
    cases queue with
    | nil => exact hacc x hx
    | cons state rest =>
      rw [bfsLoop] at hx
      obtain ⟨Δ, h1, h2, _, hmem⟩ := bfsStep_spec trans alphabet state acc rest
      have hΔ : ∀ z ∈ Δ, R z := by
        intro z hz
        obtain ⟨_, sym, hsym, hl⟩ := hmem z hz
        exact hR state (hqueue state (List.mem_cons_self _ _)) sym hsym z hl
      refine ih _ _ ?_ ?_ x hx
      · rw [h1]
        intro z hz
        rcases List.mem_append.mp hz with h | h
        · exact hacc z h
        · exact hΔ z h
      · rw [h2]
        intro z hz
        rcases List.mem_append.mp hz with h | h
        · exact hqueue z (List.mem_cons_of_mem _ h)
        · exact hΔ z h

theorem bfsLoop_closed (trans : List ((String × String) × String))
    (alphabet : List String) :
    ∀ (fuel : Nat) (acc queue : List String), bfsMeasure trans acc queue < fuel →
      (∀ x ∈ acc, x ∉ queue →
        ∀ sym ∈ alphabet, ∀ y, tlookup trans x sym = some y → y ∈ acc) →
      acc ⊆ bfsLoop trans alphabet fuel acc queue ∧
        ∀ x ∈ bfsLoop trans alphabet fuel acc queue, ∀ sym ∈ alphabet,
          ∀ y, tlookup trans x sym = some y → y ∈ bfsLoop trans alphabet fuel acc queue := by
  intro fuel
  induction fuel with
  | zero => intro acc queue hm; omega
  | succ fuel ih =>
    intro acc queue hm hinv
    cases queue with
    | nil =>
      refine ⟨List.Subset.refl _, ?_⟩
      intro x hx sym hsym y hy
      exact hinv x hx (List.not_mem_nil x) sym hsym y hy
    | cons state rest =>
      rw [bfsLoop]
      obtain ⟨Δ, h1, h2, _, hmem⟩ := bfsStep_spec trans alphabet state acc rest
      have hmlt : bfsMeasure trans (bfsStep trans alphabet state (acc, rest)).1
          (bfsStep trans alphabet state (acc, rest)).2 < fuel := by
        have := bfsLoop_measure_lt trans alphabet state acc rest
        omega
      have hinv₂ : ∀ x ∈ (bfsStep trans alphabet state (acc, rest)).1,
          x ∉ (bfsStep trans alphabet state (acc, rest)).2 →
          ∀ sym ∈ alphabet, ∀ y, tlookup trans x sym = some y →
            y ∈ (bfsStep trans alphabet state (acc, rest)).1 := by
        intro x hx hnq sym hsym y hy
        by_cases hxs : x = state
        · subst hxs
          exact bfsStep_closure trans alphabet x acc rest hsym hy
        · rw [h1] at hx
          rcases List.mem_append.mp hx with hxa | hxΔ
          · have hnq₂ : x ∉ (state :: rest) := by
              intro hc
              rcases List.mem_cons.mp hc with h | h
              · exact hxs h
              · exact hnq (by rw [h2]; exact List.mem_append.mpr (Or.inl h))
            exact bfsStep_mono trans alphabet state acc rest
              (hinv x hxa hnq₂ sym hsym y hy)
          · exact absurd (by rw [h2]; exact List.mem_append.mpr (Or.inr hxΔ)) hnq
      obtain ⟨hsub, hcl⟩ := ih _ _ hmlt hinv₂
      exact ⟨fun x hx => hsub (bfsStep_mono trans alphabet state acc rest hx), hcl⟩

theorem mem_get_accessible_states (d : DFA) :
    ∀ x, x ∈ get_accessible_states d ↔ Reachable d x := by
  have hmlt : bfsMeasure d.transitions [d.start_state] [d.start_state] <
      d.transitions.length + 2 := by
    rw [bfsMeasure]
    have h1 : ((targetsOf d.transitions).toFinset \ [d.start_state].toFinset).card ≤
        (targetsOf d.transitions).toFinset.card :=
      Finset.card_le_card (Finset.sdiff_subset)
    have h2 : (targetsOf d.transitions).toFinset.card ≤ (targetsOf d.transitions).length :=
      List.toFinset_card_le _
    have h3 : (targetsOf d.transitions).length = d.transitions.length :=
      List.length_map _ _
    simp only [List.length_cons, List.length_nil]
    omega
  have hinv : ∀ x ∈ [d.start_state], x ∉ [d.start_state] →
      ∀ sym ∈ d.alphabet, ∀ y, tlookup d.transitions x sym = some y →
        y ∈ [d.start_state] := by
    intro x hx hnx
    exact absurd hx hnx
  obtain ⟨hsub, hcl⟩ := bfsLoop_closed d.transitions d.alphabet _ _ _ hmlt hinv
  intro x
  constructor
  · intro hx
    refine bfsLoop_sound d.transitions d.alphabet (Reachable d) ?_ _ _ _ ?_ ?_ x hx
    · intro q hq sym hsym y hy
      exact Reachable.step hq hsym hy
    · intro z hz
      rw [List.mem_singleton] at hz
      subst hz
      exact Reachable.start
    · intro z hz
      rw [List.mem_singleton] at hz
      subst hz
      exact Reachable.start
  · intro hx
    induction hx with
    | start => exact hsub (List.mem_singleton_self _)
    | step hq hsym hl ih => exact hcl _ ih _ hsym _ hl

theorem get_accessible_states_nodup (d : DFA) : (get_accessible_states d).Nodup := by
  have key : ∀ (fuel : Nat) (acc queue : List String), acc.Nodup →
      (bfsLoop d.transitions d.alphabet fuel acc queue).Nodup := by
    intro fuel
    induction fuel with
    | zero => intro acc queue h; exact h
    | succ fuel ih =>
      intro acc queue hacc
      cases queue with
      | nil => exact hacc
      | cons state rest =>
        rw [bfsLoop]
        obtain ⟨Δ, h1, _, hnd, hmem⟩ :=
          bfsStep_spec d.transitions d.alphabet state acc rest
        refine ih _ _ ?_
        rw [h1]
        rw [List.nodup_append]
        exact ⟨hacc, hnd, fun x hx hxΔ => (hmem x hxΔ).1 hx⟩
  exact key _ _ _ (List.nodup_singleton _)

/-! ## C6 -/

/-- C6: `remove_inaccessible_states` keeps exactly the states reachable from
the start state via defined transitions (computed by the breadth-first
traversal `get_accessible_states`), restricts the transitions to those whose
source and successor are both reachable, intersects the final states with the
reachable set, and leaves the start state and alphabet unchanged. -/
theorem remove_inaccessible_states_spec (d : DFA) :
    (∀ x, x ∈ (remove_inaccessible_states d).states ↔ Reachable d x) ∧
    (∀ e, e ∈ (remove_inaccessible_states d).transitions ↔
      e ∈ d.transitions ∧ Reachable d e.1.1 ∧ Reachable d e.2) ∧
    (∀ s, s ∈ (remove_inaccessible_states d).final_states ↔
      s ∈ d.final_states ∧ Reachable d s) ∧
    (remove_inaccessible_states d).start_state = d.start_state ∧
    (remove_inaccessible_states d).alphabet = d.alphabet := by
  refine ⟨mem_get_accessible_states d, ?_, ?_, rfl, rfl⟩
  · intro e
    show e ∈ d.transitions.filter _ ↔ _
    rw [List.mem_filter]
    constructor
    · rintro ⟨h1, h2⟩
      rw [decide_eq_true_eq] at h2
      exact ⟨h1, (mem_get_accessible_states d _).mp h2.1,
        (mem_get_accessible_states d _).mp h2.2⟩
    · rintro ⟨h1, h2, h3⟩
      refine ⟨h1, ?_⟩
      rw [decide_eq_true_eq]
      exact ⟨(mem_get_accessible_states d _).mpr h2, (mem_get_accessible_states d _).mpr h3⟩
  · intro s
    show s ∈ d.final_states.filter _ ↔ _
    rw [List.mem_filter]
    constructor
    · rintro ⟨h1, h2⟩
      rw [decide_eq_true_eq] at h2
      exact ⟨h1, (mem_get_accessible_states d _).mp h2⟩
    · rintro ⟨h1, h2⟩
      refine ⟨h1, ?_⟩
      rw [decide_eq_true_eq]
      exact (mem_get_accessible_states d _).mpr h2

/-! ## Partition refinement: structure preservation -/

theorem setAdd_mem {α : Type} [DecidableEq α] (s : List α) (x y : α) :
    y ∈ setAdd s x ↔ y ∈ s ∨ y = x := by
  unfold setAdd
  by_cases h : x ∈ s
  · rw [if_pos h]
    constructor
    · exact Or.inl
    · rintro (hy | rfl)
      · exact hy
      · exact h
  · rw [if_neg h]
    simp

theorem setAdd_nodup {α : Type} [DecidableEq α] {s : List α} (x : α) (h : s.Nodup) :
    (setAdd s x).Nodup := by
  unfold setAdd
  by_cases hx : x ∈ s
  · rw [if_pos hx]; exact h
  · rw [if_neg hx]
    rw [List.nodup_append]
    refine ⟨h, List.nodup_singleton x, ?_⟩
    intro y hy hyx
    rw [List.mem_singleton] at hyx
    subst hyx
    exact hx hy

theorem setAdd_ne_nil {α : Type} [DecidableEq α] (s : List α) (x : α) :
    setAdd s x ≠ [] := by
  unfold setAdd
  by_cases hx : x ∈ s
  · rw [if_pos hx]
    intro hc
    subst hc
    cases hx
  · rw [if_neg hx]
    simp

theorem find_key_isSome_iff {κ ν : Type} [DecidableEq κ] (d : List (κ × ν)) (k : κ) :
    (d.find? (fun e => e.1 = k)).isSome ↔ ∃ e ∈ d, e.1 = k := by
  rw [List.find?_isSome]
  constructor
  · rintro ⟨e, he, hk⟩
    exact ⟨e, he, by simpa using hk⟩
  · rintro ⟨e, he, hk⟩
    exact ⟨e, he, by simpa using hk⟩

theorem addToSubgroups_spec (sgs : List (List (String × Int) × List String))
    (sig : List (String × Int)) (x : String)
    (hkeys : (sgs.map Prod.fst).Nodup)
    (hne : ∀ e ∈ sgs, e.2 ≠ [])
    (hnd : ∀ e ∈ sgs, e.2.Nodup) :
    ((addToSubgroups sgs sig x).map Prod.fst).Nodup ∧
    (∀ e ∈ addToSubgroups sgs sig x, e.2 ≠ []) ∧
    (∀ e ∈ addToSubgroups sgs sig x, e.2.Nodup) ∧
    (∀ e ∈ addToSubgroups sgs sig x, ∀ y ∈ e.2,
      (∃ e₀ ∈ sgs, e₀.1 = e.1 ∧ y ∈ e₀.2) ∨ (y = x ∧ e.1 = sig)) ∧
    (∃ e ∈ addToSubgroups sgs sig x, e.1 = sig ∧ x ∈ e.2) ∧
    (∀ e₀ ∈ sgs, ∃ e ∈ addToSubgroups sgs sig x, e.1 = e₀.1 ∧ ∀ y ∈ e₀.2, y ∈ e.2) := by
  unfold addToSubgroups
  by_cases hfind : (sgs.find? (fun e => e.1 = sig)).isSome
  · rw [if_pos hfind]
    have hupd : ∀ e : List (String × Int) × List String,
        (if e.1 = sig then (e.1, setAdd e.2 x) else e).1 = e.1 := by
      intro e
      by_cases h : e.1 = sig <;> simp [h]
    have hmapfst : ((sgs.map (fun e => if e.1 = sig then (e.1, setAdd e.2 x) else e)).map
        Prod.fst) = sgs.map Prod.fst := by
      rw [List.map_map]
      exact List.map_congr_left (fun e _ => hupd e)
    refine ⟨by rw [hmapfst]; exact hkeys, ?_, ?_, ?_, ?_, ?_⟩
    · intro e he
      obtain ⟨e₀, he₀, heq⟩ := List.mem_map.mp he
      subst heq
      by_cases h : e₀.1 = sig
      · rw [if_pos h]
        exact setAdd_ne_nil _ _
      · rw [if_neg h]
        exact hne e₀ he₀
    · intro e he
      obtain ⟨e₀, he₀, heq⟩ := List.mem_map.mp he
      subst heq
      by_cases h : e₀.1 = sig
      · rw [if_pos h]
        exact setAdd_nodup _ (hnd e₀ he₀)
      · rw [if_neg h]
        exact hnd e₀ he₀
    · intro e he y hy
      obtain ⟨e₀, he₀, heq⟩ := List.mem_map.mp he
      subst heq
      by_cases h : e₀.1 = sig
      · rw [if_pos h] at hy ⊢
        rcases (setAdd_mem _ _ _).mp hy with hmem | rfl
        · exact Or.inl ⟨e₀, he₀, by simp, hmem⟩
        · exact Or.inr ⟨rfl, by simpa using h⟩
      · rw [if_neg h] at hy ⊢
        exact Or.inl ⟨e₀, he₀, rfl, hy⟩
    · obtain ⟨e₀, he₀, hk⟩ := (find_key_isSome_iff sgs sig).mp hfind
      refine ⟨(e₀.1, setAdd e₀.2 x), ?_, by simpa using hk, ?_⟩
      · refine List.mem_map.mpr ⟨e₀, he₀, ?_⟩
        rw [if_pos hk]
      · show x ∈ setAdd e₀.2 x
        rw [setAdd_mem]
        exact Or.inr rfl
    · intro e₀ he₀
      by_cases h : e₀.1 = sig
      · refine ⟨(e₀.1, setAdd e₀.2 x), List.mem_map.mpr ⟨e₀, he₀, by rw [if_pos h]⟩,
          rfl, ?_⟩
        intro y hy
        show y ∈ setAdd e₀.2 x
        rw [setAdd_mem]
        exact Or.inl hy
      · exact ⟨e₀, List.mem_map.mpr ⟨e₀, he₀, by rw [if_neg h]⟩, rfl, fun y hy => hy⟩
  · rw [if_neg hfind]
    have hnotkey : sig ∉ sgs.map Prod.fst := by
      intro hc
      obtain ⟨e, he, hk⟩ := List.mem_map.mp hc
      exact hfind ((find_key_isSome_iff sgs sig).mpr ⟨e, he, hk⟩)
    refine ⟨?_, ?_, ?_, ?_, ?_, ?_⟩
    · rw [List.map_append, List.nodup_append]
      refine ⟨hkeys, by simp, ?_⟩
      intro k hk hk₂
      simp only [List.map_cons, List.map_nil, List.mem_singleton] at hk₂
      subst hk₂
      exact hnotkey hk
    · intro e he
      rcases List.mem_append.mp he with h | h
      · exact hne e h
      · rw [List.mem_singleton] at h
        subst h
        simp
    · intro e he
      rcases List.mem_append.mp he with h | h
      · exact hnd e h
      · rw [List.mem_singleton] at h
        subst h
        exact List.nodup_singleton x
    · intro e he y hy
      rcases List.mem_append.mp he with h | h
      · exact Or.inl ⟨e, h, rfl, hy⟩
      · rw [List.mem_singleton] at h
        subst h
        simp only [List.mem_singleton] at hy
        exact Or.inr ⟨hy, rfl⟩
    · exact ⟨(sig, [x]), List.mem_append.mpr (Or.inr (List.mem_singleton_self _)), rfl,
        List.mem_singleton_self _⟩
    · intro e₀ he₀
      exact ⟨e₀, List.mem_append.mpr (Or.inl he₀), rfl, fun y hy => hy⟩

theorem refineGroup_spec (d : DFA) (pt : List (List String)) (g : List String) :
    ((refineGroup d pt g).map Prod.fst).Nodup ∧
    (∀ e ∈ refineGroup d pt g, e.2 ≠ []) ∧
    (∀ e ∈ refineGroup d pt g, e.2.Nodup) ∧
    (∀ e ∈ refineGroup d pt g, ∀ y ∈ e.2, signature d pt y = e.1 ∧ y ∈ g) ∧
    (∀ x ∈ g, ∃ e ∈ refineGroup d pt g, x ∈ e.2) := by
  have main : ∀ (l : List String) (sgs₀ : List (List (String × Int) × List String)),
      (sgs₀.map Prod.fst).Nodup →
      (∀ e ∈ sgs₀, e.2 ≠ []) →
      (∀ e ∈ sgs₀, e.2.Nodup) →
      (∀ e ∈ sgs₀, ∀ y ∈ e.2, signature d pt y = e.1) →
      (((l.foldl (fun sgs state =>
          addToSubgroups sgs (signature d pt state) state) sgs₀).map Prod.fst).Nodup ∧
       (∀ e ∈ l.foldl (fun sgs state =>
          addToSubgroups sgs (signature d pt state) state) sgs₀, e.2 ≠ []) ∧
       (∀ e ∈ l.foldl (fun sgs state =>
          addToSubgroups sgs (signature d pt state) state) sgs₀, e.2.Nodup) ∧
       (∀ e ∈ l.foldl (fun sgs state =>
          addToSubgroups sgs (signature d pt state) state) sgs₀, ∀ y ∈ e.2,
            signature d pt y = e.1) ∧
       (∀ e ∈ l.foldl (fun sgs state =>
          addToSubgroups sgs (signature d pt state) state) sgs₀, ∀ y ∈ e.2,
            (∃ e₀ ∈ sgs₀, y ∈ e₀.2) ∨ y ∈ l) ∧
       (∀ x ∈ l, ∃ e ∈ l.foldl (fun sgs state =>
          addToSubgroups sgs (signature d pt state) state) sgs₀, x ∈ e.2) ∧
       (∀ e₀ ∈ sgs₀, ∀ y ∈ e₀.2, ∃ e ∈ l.foldl (fun sgs state =>
          addToSubgroups sgs (signature d pt state) state) sgs₀, y ∈ e.2)) := by
    intro l
    induction l with
    | nil =>
      intro sgs₀ hkeys hne hnd hhom
      refine ⟨hkeys, hne, hnd, fun e he y hy => hhom e he y hy, ?_, ?_, ?_⟩
      · intro e he y hy
        exact Or.inl ⟨e, he, hy⟩
      · intro x hx
        cases hx
      · intro e₀ he₀ y hy
        exact ⟨e₀, he₀, hy⟩
    | cons state rest ih =>
      intro sgs₀ hkeys hne hnd hhom
      rw [List.foldl_cons]
      obtain ⟨akeys, ane, and₂, aback, aself, aold⟩ :=
        addToSubgroups_spec sgs₀ (signature d pt state) state hkeys hne hnd
      have ahom : ∀ e ∈ addToSubgroups sgs₀ (signature d pt state) state,
          ∀ y ∈ e.2, signature d pt y = e.1 := by
        intro e he y hy
        rcases aback e he y hy with ⟨e₀, he₀, hk, hy₀⟩ | ⟨rfl, hk⟩
        · rw [hhom e₀ he₀ y hy₀, hk]
        · rw [hk]
      obtain ⟨rkeys, rne, rnd, rhom, rback, rcov, rold⟩ :=
        ih (addToSubgroups sgs₀ (signature d pt state) state) akeys ane and₂ ahom
      refine ⟨rkeys, rne, rnd, rhom, ?_, ?_, ?_⟩
      · intro e he y hy
        rcases rback e he y hy with ⟨e₁, he₁, hy₁⟩ | hyrest
        · rcases aback e₁ he₁ y hy₁ with ⟨e₀, he₀, _, hy₀⟩ | ⟨rfl, _⟩
          · exact Or.inl ⟨e₀, he₀, hy₀⟩
          · exact Or.inr (List.mem_cons_self _ _)
        · exact Or.inr (List.mem_cons_of_mem _ hyrest)
      · intro x hx
        rcases List.mem_cons.mp hx with rfl | hxr
        · obtain ⟨e₁, he₁, _, hx₁⟩ := aself
          exact rold e₁ he₁ x hx₁
        · exact rcov x hxr
      · intro e₀ he₀ y hy
        obtain ⟨e₁, he₁, _, hsub⟩ := aold e₀ he₀
        exact rold e₁ he₁ y (hsub y hy)
  obtain ⟨h1, h2, h3, h4, h5, h6, _⟩ :=
    main g [] (by simp) (by simp) (by simp) (by simp)
  refine ⟨h1, h2, h3, ?_, h6⟩
  intro e he y hy
  refine ⟨h4 e he y hy, ?_⟩
  rcases h5 e he y hy with ⟨e₀, he₀, _⟩ | hyg
  · cases he₀
  · exact hyg

theorem foldl_append_eq_flatten {α β : Type} (f : α → List β) (l : List α)
    (init : List β) :
    l.foldl (fun r a => r ++ f a) init = init ++ (l.map f).flatten := by
  induction l generalizing init with
  | nil => simp
  | cons a l ih => rw [List.foldl_cons, ih, List.map_cons, List.flatten_cons]; simp

theorem refine_partition_eq_flatten (d : DFA) (pt : List (List String)) :
    refine_partition d pt =
      (pt.map (fun g => (refineGroup d pt g).map Prod.snd)).flatten := by
  unfold refine_partition
  rw [foldl_append_eq_flatten]
  simp

/-- Pairwise disjointness of the groups of a partition, in list order. -/
def GroupsDisjoint (pt : List (List String)) : Prop :=
  List.Pairwise (fun g₁ g₂ => ∀ x, x ∈ g₁ → x ∉ g₂) pt

theorem groupsDisjoint_unique {pt : List (List String)} (hdisj : GroupsDisjoint pt) :
    ∀ g₁ ∈ pt, ∀ g₂ ∈ pt, ∀ x, x ∈ g₁ → x ∈ g₂ → g₁ = g₂ := by
  induction pt with
  | nil => intro g₁ h; cases h
  | cons g rest ih =>
    rw [GroupsDisjoint, List.pairwise_cons] at hdisj
    intro g₁ hg₁ g₂ hg₂ x hx₁ hx₂
    rcases List.mem_cons.mp hg₁ with rfl | hg₁r
    · rcases List.mem_cons.mp hg₂ with rfl | hg₂r
      · rfl
      · exact absurd hx₂ (hdisj.1 g₂ hg₂r x hx₁)
    · rcases List.mem_cons.mp hg₂ with rfl | hg₂r
      · exact absurd hx₁ (hdisj.1 g₁ hg₁r x hx₂)
      · exact ih hdisj.2 g₁ hg₁r g₂ hg₂r x hx₁ hx₂

theorem refine_mem_block {d : DFA} {pt : List (List String)} {g' : List String}
    (h : g' ∈ refine_partition d pt) :
    ∃ g ∈ pt, ∃ e ∈ refineGroup d pt g, g' = e.2 := by
  rw [refine_partition_eq_flatten] at h
  obtain ⟨b, hb, hg'⟩ := List.mem_flatten.mp h
  obtain ⟨g, hg, rfl⟩ := List.mem_map.mp hb
  obtain ⟨e, he, rfl⟩ := List.mem_map.mp hg'
  exact ⟨g, hg, e, he, rfl⟩

theorem refine_block_mem {d : DFA} {pt : List (List String)} {g : List String}
    (hg : g ∈ pt) {e : List (String × Int) × List String}
    (he : e ∈ refineGroup d pt g) : e.2 ∈ refine_partition d pt := by
  rw [refine_partition_eq_flatten]
  exact List.mem_flatten_of_mem (List.mem_map_of_mem _ hg) (List.mem_map_of_mem _ he)

theorem refine_partition_facts (d : DFA) (pt : List (List String))
    (hne : ∀ g ∈ pt, g ≠ []) (hdisj : GroupsDisjoint pt) :
    (∀ g' ∈ refine_partition d pt, g' ≠ [] ∧ g'.Nodup ∧
      ∃ g ∈ pt, (∀ x ∈ g', x ∈ g) ∧
        ∀ x ∈ g', ∀ y ∈ g', signature d pt x = signature d pt y) ∧
    (∀ x, (∃ g' ∈ refine_partition d pt, x ∈ g') ↔ ∃ g ∈ pt, x ∈ g) ∧
    GroupsDisjoint (refine_partition d pt) := by
  refine ⟨?_, ?_, ?_⟩
  · intro g' hg'
    obtain ⟨g, hg, e, he, rfl⟩ := refine_mem_block hg'
    obtain ⟨_, hne₂, hnd₂, hhom, _⟩ := refineGroup_spec d pt g
    refine ⟨hne₂ e he, hnd₂ e he, g, hg, fun x hx => (hhom e he x hx).2, ?_⟩
    intro x hx y hy
    rw [(hhom e he x hx).1, (hhom e he y hy).1]
  · intro x
    constructor
    · rintro ⟨g', hg', hx⟩
      obtain ⟨g, hg, e, he, rfl⟩ := refine_mem_block hg'
      obtain ⟨_, _, _, hhom, _⟩ := refineGroup_spec d pt g
      exact ⟨g, hg, (hhom e he x hx).2⟩
    · rintro ⟨g, hg, hx⟩
      obtain ⟨_, _, _, _, hcov⟩ := refineGroup_spec d pt g
      obtain ⟨e, he, hxe⟩ := hcov x hx
      exact ⟨e.2, refine_block_mem hg he, hxe⟩
  · rw [GroupsDisjoint, refine_partition_eq_flatten, List.pairwise_flatten]
    constructor
    · intro b hb
      obtain ⟨g, hg, rfl⟩ := List.mem_map.mp hb
      obtain ⟨hkeys, _, _, hhom, _⟩ := refineGroup_spec d pt g
      rw [List.pairwise_map]
      have hkeysne : List.Pairwise (fun e₁ e₂ :
          List (String × Int) × List String => e₁.1 ≠ e₂.1) (refineGroup d pt g) :=
        List.pairwise_map.mp hkeys
      refine List.Pairwise.imp_of_mem ?_ hkeysne
      intro e₁ e₂ he₁ he₂ hne₁₂ x hx₁ hx₂
      exact hne₁₂ (((hhom e₁ he₁ x hx₁).1).symm.trans (hhom e₂ he₂ x hx₂).1)
    · rw [List.pairwise_map]
      refine List.Pairwise.imp_of_mem ?_ hdisj
      intro g₁ g₂ hg₁ hg₂ hd g₁' hg₁' g₂' hg₂' x hx₁ hx₂
      obtain ⟨e₁, he₁, rfl⟩ := List.mem_map.mp hg₁'
      obtain ⟨e₂, he₂, rfl⟩ := List.mem_map.mp hg₂'
      obtain ⟨_, _, _, hhom₁, _⟩ := refineGroup_spec d pt g₁
      obtain ⟨_, _, _, hhom₂, _⟩ := refineGroup_spec d pt g₂
      exact hd x ((hhom₁ e₁ he₁ x hx₁).2) ((hhom₂ e₂ he₂ x hx₂).2)

/-! ## Partition equality and the fixpoint of the refinement loop -/

theorem groupEq_iff (a b : List String) :
    groupEq a b = true ↔ (∀ x ∈ a, x ∈ b) ∧ ∀ x ∈ b, x ∈ a := by
  unfold groupEq
  rw [Bool.and_eq_true, List.all_eq_true, List.all_eq_true]
  constructor
  · rintro ⟨h1, h2⟩
    exact ⟨fun x hx => by simpa using h1 x hx, fun x hx => by simpa using h2 x hx⟩
  · rintro ⟨h1, h2⟩
    exact ⟨fun x hx => by simpa using h1 x hx, fun x hx => by simpa using h2 x hx⟩

theorem partitionEq_nil_nil : partitionEq [] [] = true := by decide

theorem partitionEq_cons (a b : List String) (p q : List (List String)) :
    partitionEq (a :: p) (b :: q) = true ↔
      groupEq a b = true ∧ partitionEq p q = true := by
  unfold partitionEq
  simp only [List.zip_cons_cons, List.all_cons, List.length_cons,
    Bool.and_eq_true, decide_eq_true_eq]
  constructor
  · rintro ⟨hl, hx, hy⟩
    exact ⟨hx, by omega, hy⟩
  · rintro ⟨hx, hl, hy⟩
    exact ⟨by omega, hx, hy⟩

theorem partitionEq_length {p q : List (List String)} (h : partitionEq p q = true) :
    p.length = q.length := by
  unfold partitionEq at h
  rw [Bool.and_eq_true, decide_eq_true_eq] at h
  exact h.1

theorem headD_mem {α : Type} {g : List α} (h : g ≠ []) (x : α) : g.headD x ∈ g := by
  cases g with
  | nil => exact absurd rfl h
  | cons a t => exact List.mem_cons_self a t

theorem single_block (d : DFA) (pt : List (List String)) {g : List String}
    (hg : g ≠ [])
    (hhom : ∀ x ∈ g, ∀ y ∈ g, signature d pt x = signature d pt y) :
    ∃ sub, (refineGroup d pt g).map Prod.snd = [sub] ∧ ∀ x, x ∈ sub ↔ x ∈ g := by
  obtain ⟨hkeys, hne₂, _, hhom₂, hcov⟩ := refineGroup_spec d pt g
  obtain ⟨x₀, hx₀⟩ := List.exists_mem_of_ne_nil g hg
  obtain ⟨e₀, he₀, hx₀e⟩ := hcov x₀ hx₀
  cases hE : refineGroup d pt g with
  | nil => rw [hE] at he₀; cases he₀
  | cons e rest =>
    rw [hE] at hkeys hne₂ hhom₂ hcov he₀
    have hrest : rest = [] := by
      by_contra hc
      obtain ⟨e₂, he₂⟩ := List.exists_mem_of_ne_nil rest hc
      obtain ⟨y, hy⟩ := List.exists_mem_of_ne_nil e₂.2
        (hne₂ e₂ (List.mem_cons_of_mem _ he₂))
      obtain ⟨z, hz⟩ := List.exists_mem_of_ne_nil e.2
        (hne₂ e (List.mem_cons_self _ _))
      have hyk := hhom₂ e₂ (List.mem_cons_of_mem _ he₂) y hy
      have hzk := hhom₂ e (List.mem_cons_self _ _) z hz
      have : e₂.1 = e.1 := by
        rw [← hyk.1, ← hzk.1]
        exact hhom y hyk.2 z hzk.2
      rw [List.map_cons, List.nodup_cons] at hkeys
      exact hkeys.1 (this ▸ List.mem_map_of_mem Prod.fst he₂)
    subst hrest
    refine ⟨e.2, by simp, ?_⟩
    intro x
    constructor
    · intro hx
      exact (hhom₂ e (List.mem_cons_self _ _) x hx).2
    · intro hx
      obtain ⟨e', he', hxe⟩ := hcov x hx
      rw [List.mem_singleton] at he'
      subst he'
      exact hxe

theorem length_le_sum {l : List Nat} (h : ∀ n ∈ l, 1 ≤ n) : l.length ≤ l.sum := by
  induction l with
  | nil => simp
  | cons a t ih =>
    simp only [List.length_cons, List.sum_cons]
    have ha := h a (List.mem_cons_self _ _)
    have := ih (fun n hn => h n (List.mem_cons_of_mem _ hn))
    omega

theorem length_lt_sum {l : List Nat} (h1 : ∀ n ∈ l, 1 ≤ n)
    (h2 : ∃ n ∈ l, 2 ≤ n) : l.length < l.sum := by
  induction l with
  | nil => obtain ⟨n, hn, _⟩ := h2; cases hn
  | cons a t ih =>
    simp only [List.length_cons, List.sum_cons]
    obtain ⟨n, hn, h2n⟩ := h2
    rcases List.mem_cons.mp hn with rfl | hnt
    · have := length_le_sum (fun m hm => h1 m (List.mem_cons_of_mem _ hm))
      omega
    · have ha := h1 a (List.mem_cons_self _ _)
      have := ih (fun m hm => h1 m (List.mem_cons_of_mem _ hm)) ⟨n, hnt, h2n⟩
      omega

theorem two_le_length_of_mem {α : Type} {l : List α} {a b : α}
    (ha : a ∈ l) (hb : b ∈ l) (hab : a ≠ b) : 2 ≤ l.length := by
  cases l with
  | nil => cases ha
  | cons x t =>
    cases t with
    | nil =>
      rw [List.mem_singleton] at ha hb
      exact absurd (ha.trans hb.symm) hab
    | cons y t => simp only [List.length_cons]; omega

theorem refine_longer (d : DFA) (pt : List (List String))
    (hne : ∀ g ∈ pt, g ≠ [])
    (hbad : ∃ g ∈ pt, ∃ x ∈ g, ∃ y ∈ g, signature d pt x ≠ signature d pt y) :
    pt.length < (refine_partition d pt).length := by
  rw [refine_partition_eq_flatten, List.length_flatten, List.map_map]
  have hlen : pt.length =
      (pt.map (List.length ∘ fun g => (refineGroup d pt g).map Prod.snd)).length :=
    (List.length_map _ _).symm
  rw [hlen]
  apply length_lt_sum
  · intro n hn
    obtain ⟨g, hg, rfl⟩ := List.mem_map.mp hn
    obtain ⟨_, _, _, _, hcov⟩ := refineGroup_spec d pt g
    obtain ⟨x₀, hx₀⟩ := List.exists_mem_of_ne_nil g (hne g hg)
    obtain ⟨e₀, he₀, _⟩ := hcov x₀ hx₀
    show 1 ≤ ((refineGroup d pt g).map Prod.snd).length
    rw [List.length_map]
    exact List.length_pos_of_mem he₀
  · obtain ⟨g, hg, x, hx, y, hy, hxy⟩ := hbad
    refine ⟨((refineGroup d pt g).map Prod.snd).length, List.mem_map_of_mem _ hg, ?_⟩
    obtain ⟨_, _, _, hhom, hcov⟩ := refineGroup_spec d pt g
    obtain ⟨e₁, he₁, hxe⟩ := hcov x hx
    obtain ⟨e₂, he₂, hye⟩ := hcov y hy
    have hne₁₂ : e₁ ≠ e₂ := by
      intro hc
      subst hc
      exact hxy (((hhom e₁ he₁ x hxe).1).symm ▸ ((hhom e₁ he₁ y hye).1).symm ▸ rfl)
    rw [List.length_map]
    exact two_le_length_of_mem he₁ he₂ hne₁₂

theorem partitionEq_refine_of_homog (d : DFA) (pt : List (List String))
    (hne : ∀ g ∈ pt, g ≠ [])
    (hhom : ∀ g ∈ pt, ∀ x ∈ g, ∀ y ∈ g, signature d pt x = signature d pt y) :
    partitionEq (refine_partition d pt) pt = true := by
  rw [refine_partition_eq_flatten]
  have key : ∀ l : List (List String), (∀ g ∈ l, g ≠ []) →
      (∀ g ∈ l, ∀ x ∈ g, ∀ y ∈ g, signature d pt x = signature d pt y) →
      partitionEq ((l.map (fun g => (refineGroup d pt g).map Prod.snd)).flatten) l
        = true := by
    intro l
    induction l with
    | nil => intro _ _; exact partitionEq_nil_nil
    | cons g rest ih =>
      intro hne₂ hhom₂
      obtain ⟨sub, hsub, hiff⟩ := single_block d pt (hne₂ g (List.mem_cons_self _ _))
        (hhom₂ g (List.mem_cons_self _ _))
      rw [List.map_cons, List.flatten_cons, hsub]
      show partitionEq (sub :: _) (g :: rest) = true
      rw [partitionEq_cons]
      refine ⟨(groupEq_iff _ _).mpr ⟨fun x hx => (hiff x).mp hx,
        fun x hx => (hiff x).mpr hx⟩, ?_⟩
      exact ih (fun g' hg' => hne₂ g' (List.mem_cons_of_mem _ hg'))
        (fun g' hg' => hhom₂ g' (List.mem_cons_of_mem _ hg'))
  exact key pt hne hhom

/-! ## Invariants of the refinement loop inside `minimize` -/

/-- The loop invariant of the partition-refinement phase: groups are nonempty
duplicate-free pairwise-disjoint subsets of the automaton's states covering
all of them, and each group is accepting-homogeneous. -/
def PtInv (dfa : DFA) (pt : List (List String)) : Prop :=
  (∀ g ∈ pt, g ≠ []) ∧ (∀ g ∈ pt, g.Nodup) ∧ GroupsDisjoint pt ∧
  (∀ g ∈ pt, ∀ x ∈ g, x ∈ dfa.states) ∧ (∀ x ∈ dfa.states, ∃ g ∈ pt, x ∈ g) ∧
  (∀ g ∈ pt, (∀ x ∈ g, x ∈ dfa.final_states) ∨ ∀ x ∈ g, x ∉ dfa.final_states)

theorem refine_preserves_inv (d : DFA) (pt : List (List String)) (h : PtInv d pt) :
    PtInv d (refine_partition d pt) := by
  obtain ⟨hne, hnd, hdisj, hsub, hcov, hacc⟩ := h
  obtain ⟨hfacts, hunion, hdisj₂⟩ := refine_partition_facts d pt hne hdisj
  refine ⟨fun g' hg' => (hfacts g' hg').1, fun g' hg' => (hfacts g' hg').2.1, hdisj₂,
    ?_, ?_, ?_⟩
  · intro g' hg' x hx
    obtain ⟨g, hg, hsubg, _⟩ := (hfacts g' hg').2.2
    exact hsub g hg x (hsubg x hx)
  · intro x hx
    exact (hunion x).mpr (hcov x hx)
  · intro g' hg'
    obtain ⟨g, hg, hsubg, _⟩ := (hfacts g' hg').2.2
    rcases hacc g hg with h | h
    · exact Or.inl (fun x hx => h x (hsubg x hx))
    · exact Or.inr (fun x hx => h x (hsubg x hx))

theorem ptInv_length_le (d : DFA) (pt : List (List String)) (h : PtInv d pt)
    (hstates : d.states.Nodup) : pt.length ≤ d.states.length := by
  obtain ⟨hne, _, hdisj, hsub, _, _⟩ := h
  have hheads : (pt.map (fun g => g.headD "")).Nodup := by
    rw [List.Nodup, List.pairwise_map]
    refine List.Pairwise.imp_of_mem ?_ hdisj
    intro g₁ g₂ hg₁ hg₂ hd hc
    exact hd (g₁.headD "") (headD_mem (hne g₁ hg₁) "")
      (hc ▸ headD_mem (hne g₂ hg₂) "")
  have hsub₂ : ∀ x ∈ pt.map (fun g => g.headD ""), x ∈ d.states := by
    intro x hx
    obtain ⟨g, hg, rfl⟩ := List.mem_map.mp hx
    exact hsub g hg _ (headD_mem (hne g hg) "")
  calc pt.length = (pt.map (fun g => g.headD "")).length := (List.length_map _ _).symm
    _ = (pt.map (fun g => g.headD "")).toFinset.card :=
        (List.toFinset_card_of_nodup hheads).symm
    _ ≤ d.states.toFinset.card := by
        apply Finset.card_le_card
        intro x hx
        rw [List.mem_toFinset] at hx ⊢
        exact hsub₂ x hx
    _ ≤ d.states.length := List.toFinset_card_le _

theorem refineLoop_spec (d : DFA) (hstates : d.states.Nodup) :
    ∀ (fuel : Nat) (pt : List (List String)), PtInv d pt →
      d.states.length + 1 ≤ fuel + pt.length →
      PtInv d (refineLoop d fuel pt) ∧
        partitionEq (refine_partition d (refineLoop d fuel pt))
          (refineLoop d fuel pt) = true := by
  intro fuel
  induction fuel with
  | zero =>
    intro pt hinv hfuel
    have := ptInv_length_le d pt hinv hstates
    omega
  | succ fuel ih =>
    intro pt hinv hfuel
    rw [refineLoop]
    by_cases hEq : partitionEq (refine_partition d pt) pt = true
    · rw [if_pos hEq]
      exact ⟨hinv, hEq⟩
    · rw [if_neg hEq]
      have hgrow : pt.length < (refine_partition d pt).length := by
        by_cases hall : ∀ g ∈ pt, ∀ x ∈ g, ∀ y ∈ g, signature d pt x = signature d pt y
        · exact absurd (partitionEq_refine_of_homog d pt hinv.1 hall) hEq
        · push_neg at hall
          exact refine_longer d pt hinv.1 hall
      exact ih (refine_partition d pt) (refine_preserves_inv d pt hinv) (by omega)

theorem fixpoint_homog (d : DFA) (P : List (List String)) (hinv : PtInv d P)
    (hfix : partitionEq (refine_partition d P) P = true) :
    ∀ g ∈ P, ∀ x ∈ g, ∀ y ∈ g, signature d P x = signature d P y := by
  by_contra h
  push_neg at h
  obtain ⟨g, hg, x, hx, y, hy, hxy⟩ := h
  have := refine_longer d P hinv.1 ⟨g, hg, x, hx, y, hy, hxy⟩
  have := partitionEq_length hfix
  omega

theorem initial_inv (dfa : DFA) (hstates : dfa.states.Nodup)
    (hfinsub : ∀ x ∈ dfa.final_states, x ∈ dfa.states)
    (hfinnd : dfa.final_states.Nodup) :
    PtInv dfa ((if dfa.final_states.isEmpty then [] else [dfa.final_states]) ++
      (if (dfa.states.filter (fun s => decide (s ∉ dfa.final_states))).isEmpty then []
       else [dfa.states.filter (fun s => decide (s ∉ dfa.final_states))])) := by
  have hmemA : ∀ g, g ∈ (if dfa.final_states.isEmpty then []
      else [dfa.final_states]) ++
      (if (dfa.states.filter (fun s => decide (s ∉ dfa.final_states))).isEmpty then []
       else [dfa.states.filter (fun s => decide (s ∉ dfa.final_states))]) →
      g = dfa.final_states ∧ dfa.final_states ≠ [] ∨
        g = dfa.states.filter (fun s => decide (s ∉ dfa.final_states)) ∧
          dfa.states.filter (fun s => decide (s ∉ dfa.final_states)) ≠ [] := by
    intro g hg
    rcases List.mem_append.mp hg with h | h
    · by_cases hA : dfa.final_states.isEmpty
      · rw [if_pos hA] at h; cases h
      · rw [if_neg hA, List.mem_singleton] at h
        exact Or.inl ⟨h, by simpa [List.isEmpty_iff] using hA⟩
    · by_cases hN : (dfa.states.filter (fun s => decide (s ∉ dfa.final_states))).isEmpty
      · rw [if_pos hN] at h; cases h
      · rw [if_neg hN, List.mem_singleton] at h
        exact Or.inr ⟨h, by simpa [List.isEmpty_iff] using hN⟩
  refine ⟨?_, ?_, ?_, ?_, ?_, ?_⟩
  · intro g hg
    rcases hmemA g hg with ⟨rfl, h⟩ | ⟨rfl, h⟩ <;> exact h
  · intro g hg
    rcases hmemA g hg with ⟨rfl, _⟩ | ⟨rfl, _⟩
    · exact hfinnd
    · exact hstates.filter _
  · rw [GroupsDisjoint, List.pairwise_append]
    refine ⟨?_, ?_, ?_⟩
    · by_cases hA : dfa.final_states.isEmpty
      · rw [if_pos hA]; exact List.Pairwise.nil
      · rw [if_neg hA]; simp
    · by_cases hN :
        (dfa.states.filter (fun s => decide (s ∉ dfa.final_states))).isEmpty
      · rw [if_pos hN]; exact List.Pairwise.nil
      · rw [if_neg hN]; simp
    · intro g₁ hg₁ g₂ hg₂
      by_cases hA : dfa.final_states.isEmpty
      · rw [if_pos hA] at hg₁; cases hg₁
      · rw [if_neg hA, List.mem_singleton] at hg₁
        subst hg₁
        by_cases hN :
            (dfa.states.filter (fun s => decide (s ∉ dfa.final_states))).isEmpty
        · rw [if_pos hN] at hg₂; cases hg₂
        · rw [if_neg hN, List.mem_singleton] at hg₂
          subst hg₂
          intro x hx hx₂
          have := List.of_mem_filter hx₂
          rw [decide_eq_true_eq] at this
          exact this hx
  · intro g hg x hx
    rcases hmemA g hg with ⟨rfl, _⟩ | ⟨rfl, _⟩
    · exact hfinsub x hx
    · exact List.mem_of_mem_filter hx
  · intro x hx
    by_cases hxf : x ∈ dfa.final_states
    · refine ⟨dfa.final_states, ?_, hxf⟩
      apply List.mem_append.mpr
      left
      have : ¬ dfa.final_states.isEmpty := by
        rw [List.isEmpty_iff]
        intro h
        rw [h] at hxf
        cases hxf
      rw [if_neg this]
      exact List.mem_singleton_self _
    · refine ⟨dfa.states.filter (fun s => decide (s ∉ dfa.final_states)), ?_, ?_⟩
      · apply List.mem_append.mpr
        right
        have hmem : x ∈ dfa.states.filter (fun s => decide (s ∉ dfa.final_states)) :=
          List.mem_filter.mpr ⟨hx, by rw [decide_eq_true_eq]; exact hxf⟩
        have : ¬ (dfa.states.filter (fun s => decide (s ∉ dfa.final_states))).isEmpty := by
          rw [List.isEmpty_iff]
          intro h
          rw [h] at hmem
          cases hmem
        rw [if_neg this]
        exact List.mem_singleton_self _
      · exact List.mem_filter.mpr ⟨hx, by rw [decide_eq_true_eq]; exact hxf⟩
  · intro g hg
    rcases hmemA g hg with ⟨rfl, _⟩ | ⟨rfl, _⟩
    · exact Or.inl (fun x hx => hx)
    · refine Or.inr (fun x hx => ?_)
      have := List.of_mem_filter hx
      rw [decide_eq_true_eq] at this
      exact this

theorem minimize_partition_inv (dfa : DFA) (hstates : dfa.states.Nodup)
    (hfinsub : ∀ x ∈ dfa.final_states, x ∈ dfa.states)
    (hfinnd : dfa.final_states.Nodup) :
    PtInv dfa (minimize_partition dfa) ∧
      ∀ g ∈ minimize_partition dfa, ∀ x ∈ g, ∀ y ∈ g,
        signature dfa (minimize_partition dfa) x =
          signature dfa (minimize_partition dfa) y := by
  have h0 := initial_inv dfa hstates hfinsub hfinnd
  obtain ⟨hinv, hfix⟩ := refineLoop_spec dfa hstates (dfa.states.length + 1) _ h0
    (by omega)
  exact ⟨hinv, fixpoint_homog dfa _ hinv hfix⟩

/-! ## C10 -/

/-- C10: `refine_partition` preserves partition structure — on any list of
nonempty pairwise-disjoint groups of states, every returned group is a
nonempty subset of exactly one input group, the returned groups are pairwise
disjoint, and their union is the union of the input groups.  Consequently the
refinement loop inside `minimize` never merges an accepting state with a
non-accepting one: every group of the final partition is contained in the
pruned automaton's final-state set or disjoint from it. -/
theorem refine_partition_preserves_partition (d : DFA) (pt : List (List String))
    (hne : ∀ g ∈ pt, g ≠ []) (hsub : ∀ g ∈ pt, ∀ x ∈ g, x ∈ d.states)
    (hdisj : GroupsDisjoint pt) :
    (∀ g' ∈ refine_partition d pt, g' ≠ [] ∧
      ∃! g, g ∈ pt ∧ ∀ x ∈ g', x ∈ g) ∧
    GroupsDisjoint (refine_partition d pt) ∧
    (∀ x, (∃ g' ∈ refine_partition d pt, x ∈ g') ↔ ∃ g ∈ pt, x ∈ g) ∧
    ∀ (D : DFA), D.final_states.Nodup →
      ∀ g ∈ minimize_partition (remove_inaccessible_states D),
        (∀ x ∈ g, x ∈ (remove_inaccessible_states D).final_states) ∨
        ∀ x ∈ g, x ∉ (remove_inaccessible_states D).final_states := by
  obtain ⟨hfacts, hunion, hdisj₂⟩ := refine_partition_facts d pt hne hdisj
  refine ⟨?_, hdisj₂, hunion, ?_⟩
  · intro g' hg'
    obtain ⟨hne', _, g, hg, hsubg, _⟩ := hfacts g' hg'
    refine ⟨hne', g, ⟨hg, hsubg⟩, ?_⟩
    rintro g₂ ⟨hg₂, hsubg₂⟩
    obtain ⟨x, hx⟩ := List.exists_mem_of_ne_nil g' hne'
    exact groupsDisjoint_unique hdisj g₂ hg₂ g hg x (hsubg₂ x hx) (hsubg x hx)
  · intro D hfinnd
    have hstates := get_accessible_states_nodup D
    have hfinsub : ∀ x ∈ (remove_inaccessible_states D).final_states,
        x ∈ (remove_inaccessible_states D).states := by
      intro x hx
      have := List.of_mem_filter hx
      rw [decide_eq_true_eq] at this
      exact this
    have hfinnd₂ : (remove_inaccessible_states D).final_states.Nodup :=
      hfinnd.filter _
    obtain ⟨hinv, _⟩ := minimize_partition_inv (remove_inaccessible_states D)
      hstates hfinsub hfinnd₂
    exact hinv.2.2.2.2.2

/-! ## Dictionary lemmas for the quotient construction -/

theorem dlookup_nil {κ ν : Type} [DecidableEq κ] (k : κ) :
    dlookup ([] : List (κ × ν)) k = none := rfl

theorem dlookup_cons_self {κ ν : Type} [DecidableEq κ] {e : κ × ν} {t : List (κ × ν)}
    {k : κ} (h : e.1 = k) : dlookup (e :: t) k = some e.2 := by
  unfold dlookup
  rw [List.find?_cons_of_pos _ (by simpa using h)]
  rfl

theorem dlookup_cons_ne {κ ν : Type} [DecidableEq κ] {e : κ × ν} {t : List (κ × ν)}
    {k : κ} (h : e.1 ≠ k) : dlookup (e :: t) k = dlookup t k := by
  unfold dlookup
  rw [List.find?_cons_of_neg _ (by simpa using h)]

theorem dlookup_append_right {κ ν : Type} [DecidableEq κ] {m : List (κ × ν)} {k : κ}
    (h : dlookup m k = none) (l : List (κ × ν)) :
    dlookup (m ++ l) k = dlookup l k := by
  induction m with
  | nil => simp
  | cons e t ih =>
    by_cases he : e.1 = k
    · rw [dlookup_cons_self he] at h; cases h
    · rw [List.cons_append, dlookup_cons_ne he]
      rw [dlookup_cons_ne he] at h
      exact ih h

theorem dlookup_map_upd_self {κ ν : Type} [DecidableEq κ] (m : List (κ × ν)) (k : κ)
    (v : ν) (hex : ∃ e ∈ m, e.1 = k) :
    dlookup (m.map (fun e => if e.1 = k then (k, v) else e)) k = some v := by
  induction m with
  | nil => obtain ⟨e, he, _⟩ := hex; cases he
  | cons a t ih =>
    rw [List.map_cons]
    by_cases ha : a.1 = k
    · rw [if_pos ha, dlookup_cons_self rfl]
    · rw [if_neg ha, dlookup_cons_ne ha]
      apply ih
      obtain ⟨e, he, hek⟩ := hex
      rcases List.mem_cons.mp he with rfl | het
      · exact absurd hek ha
      · exact ⟨e, het, hek⟩

theorem dlookup_map_upd_ne {κ ν : Type} [DecidableEq κ] (m : List (κ × ν)) (k : κ)
    (v : ν) {k' : κ} (h : k' ≠ k) :
    dlookup (m.map (fun e => if e.1 = k then (k, v) else e)) k' = dlookup m k' := by
  induction m with
  | nil => rfl
  | cons a t ih =>
    rw [List.map_cons]
    by_cases ha : a.1 = k
    · rw [if_pos ha]
      rw [dlookup_cons_ne (fun hc => h hc.symm), dlookup_cons_ne (by rw [ha]; exact fun hc => h hc.symm)]
      exact ih
    · rw [if_neg ha]
      by_cases ha' : a.1 = k'
      · rw [dlookup_cons_self ha', dlookup_cons_self ha']
      · rw [dlookup_cons_ne ha', dlookup_cons_ne ha']
        exact ih

theorem dlookup_dset_self {κ ν : Type} [DecidableEq κ] (m : List (κ × ν)) (k : κ)
    (v : ν) : dlookup (dset m k v) k = some v := by
  unfold dset
  by_cases hf : (m.find? (fun e => e.1 = k)).isSome
  · rw [if_pos hf]
    exact dlookup_map_upd_self m k v ((find_key_isSome_iff m k).mp hf)
  · rw [if_neg hf]
    have hnone : dlookup m k = none := by
      unfold dlookup
      cases hx : m.find? (fun e => e.1 = k) with
      | none => rfl
      | some e => rw [hx] at hf; exact absurd rfl hf
    rw [dlookup_append_right hnone]
    exact dlookup_cons_self rfl

theorem dlookup_dset_ne {κ ν : Type} [DecidableEq κ] (m : List (κ × ν)) (k : κ)
    (v : ν) {k' : κ} (h : k' ≠ k) : dlookup (dset m k v) k' = dlookup m k' := by
  unfold dset
  by_cases hf : (m.find? (fun e => e.1 = k)).isSome
  · rw [if_pos hf]
    exact dlookup_map_upd_ne m k v h
  · rw [if_neg hf]
    induction m with
    | nil =>
      rw [List.nil_append, dlookup_cons_ne (fun hc => h hc.symm)]
    | cons a t ih =>
      by_cases ha : a.1 = k'
      · rw [List.cons_append, dlookup_cons_self ha, dlookup_cons_self ha]
      · rw [List.cons_append, dlookup_cons_ne ha, dlookup_cons_ne ha]
        apply ih
        intro hsome
        apply hf
        rw [Option.isSome_iff_exists] at hsome ⊢
        obtain ⟨e, he⟩ := hsome
        by_cases hak : a.1 = k
        · exact ⟨a, by rw [List.find?_cons_of_pos _ (by simpa using hak)]⟩
        · exact ⟨e, by rw [List.find?_cons_of_neg _ (by simpa using hak)]; exact he⟩

theorem mem_setOfList {α : Type} [DecidableEq α] (l : List α) (x : α) :
    x ∈ setOfList l ↔ x ∈ l := by
  have key : ∀ (l : List α) (acc : List α),
      x ∈ l.foldl setAdd acc ↔ x ∈ acc ∨ x ∈ l := by
    intro l
    induction l with
    | nil => intro acc; simp
    | cons a t ih =>
      intro acc
      rw [List.foldl_cons, ih, setAdd_mem]
      constructor
      · rintro ((h | rfl) | h)
        · exact Or.inl h
        · exact Or.inr (List.mem_cons_self _ _)
        · exact Or.inr (List.mem_cons_of_mem _ h)
      · rintro (h | h)
        · exact Or.inl (Or.inl h)
        · rcases List.mem_cons.mp h with rfl | ht
          · exact Or.inl (Or.inr rfl)
          · exact Or.inr ht
  rw [setOfList, key]
  simp

theorem tlookup_of_mem {trans : List ((String × String) × String)}
    (hnd : (trans.map Prod.fst).Nodup) {e : (String × String) × String}
    (he : e ∈ trans) : tlookup trans e.1.1 e.1.2 = some e.2 := by
  induction trans with
  | nil => cases he
  | cons a t ih =>
    rw [List.map_cons, List.nodup_cons] at hnd
    rcases List.mem_cons.mp he with rfl | het
    · unfold tlookup
      rw [List.find?_cons_of_pos _ (by simp)]
      rfl
    · have hne : a.1 ≠ e.1 := by
        intro hc
        exact hnd.1 (hc ▸ List.mem_map_of_mem Prod.fst het)
      unfold tlookup
      rw [List.find?_cons_of_neg _ (by simpa using hne)]
      exact ih hnd.2 het

theorem tlookup_mem {trans : List ((String × String) × String)} {q c y : String}
    (h : tlookup trans q c = some y) : ∃ e ∈ trans, e.1 = (q, c) ∧ e.2 = y := by
  unfold tlookup at h
  cases hf : trans.find? (fun e => e.1 = (q, c)) with
  | none => rw [hf] at h; cases h
  | some e =>
    rw [hf] at h
    refine ⟨e, List.mem_of_find?_eq_some hf, ?_, ?_⟩
    · have := List.find?_some hf
      simpa using this
    · simpa using h

theorem find?_filter_of_first {α : Type} {l : List α} {p pr : α → Bool} {e : α}
    (hfind : l.find? p = some e) (hpr : pr e = true) :
    (l.filter pr).find? p = some e := by
  induction l with
  | nil => cases hfind
  | cons a t ih =>
    by_cases hpa : p a
    · rw [List.find?_cons_of_pos _ hpa] at hfind
      injection hfind with hfind
      subst hfind
      rw [List.filter_cons_of_pos hpr]
      exact List.find?_cons_of_pos _ hpa
    · rw [List.find?_cons_of_neg _ hpa] at hfind
      by_cases hpra : pr a
      · rw [List.filter_cons_of_pos hpra, List.find?_cons_of_neg _ hpa]
        exact ih hfind
      · rw [List.filter_cons_of_neg (by simpa using hpra)]
        exact ih hfind

theorem find?_filter_none {α : Type} {l : List α} {p pr : α → Bool}
    (hfind : l.find? p = none) : (l.filter pr).find? p = none := by
  rw [List.find?_eq_none] at hfind ⊢
  intro a ha
  exact hfind a (List.mem_of_mem_filter ha)

/-! ## Pruning preserves acceptance -/

theorem accessible_closed (d : DFA) {q c t : String}
    (hq : q ∈ get_accessible_states d) (hc : c ∈ d.alphabet)
    (ht : tlookup d.transitions q c = some t) : t ∈ get_accessible_states d :=
  (mem_get_accessible_states d t).mpr
    (Reachable.step ((mem_get_accessible_states d q).mp hq) hc ht)

theorem start_accessible (d : DFA) : d.start_state ∈ get_accessible_states d :=
  (mem_get_accessible_states d _).mpr Reachable.start

theorem prune_tlookup (d : DFA) {q c : String}
    (hq : q ∈ get_accessible_states d) (hc : c ∈ d.alphabet) :
    tlookup (remove_inaccessible_states d).transitions q c =
      tlookup d.transitions q c := by
  show tlookup (d.transitions.filter _) q c = _
  cases hl : tlookup d.transitions q c with
  | none =>
    unfold tlookup at hl ⊢
    cases hf : d.transitions.find? (fun e => e.1 = (q, c)) with
    | none => rw [find?_filter_none hf]; rfl
    | some e => rw [hf] at hl; cases hl
  | some t =>
    have htacc : t ∈ get_accessible_states d := accessible_closed d hq hc hl
    unfold tlookup at hl ⊢
    cases hf : d.transitions.find? (fun e => e.1 = (q, c)) with
    | none => rw [hf] at hl; cases hl
    | some e =>
      rw [hf] at hl
      have he1 : e.1 = (q, c) := by simpa using List.find?_some hf
      have he2 : e.2 = t := by simpa using hl
      have hpr : (fun e : (String × String) × String =>
          decide (e.1.1 ∈ get_accessible_states d ∧ e.2 ∈ get_accessible_states d)) e
          = true := by
        rw [decide_eq_true_eq]
        exact ⟨by rw [he1]; exact hq, by rw [he2]; exact htacc⟩
      rw [find?_filter_of_first hf hpr]
      exact hl

theorem run_stays_accessible (d : DFA) (s : List String) :
    ∀ q q', q ∈ get_accessible_states d → (∀ c ∈ s, c ∈ d.alphabet) →
      runFrom d q s = some q' → q' ∈ get_accessible_states d := by
  induction s with
  | nil =>
    intro q q' hq _ hrun
    rw [runFrom] at hrun
    injection hrun with hrun
    exact hrun ▸ hq
  | cons c rest ih =>
    intro q q' hq hs hrun
    rw [runFrom] at hrun
    cases hl : tlookup d.transitions q c with
    | none => rw [hl] at hrun; cases hrun
    | some t =>
      rw [hl] at hrun
      exact ih t q' (accessible_closed d hq (hs c (List.mem_cons_self _ _)) hl)
        (fun c' hc' => hs c' (List.mem_cons_of_mem _ hc')) hrun

theorem prune_runFrom (d : DFA) (s : List String) :
    ∀ q, q ∈ get_accessible_states d → (∀ c ∈ s, c ∈ d.alphabet) →
      runFrom (remove_inaccessible_states d) q s = runFrom d q s := by
  induction s with
  | nil => intro q _ _; rfl
  | cons c rest ih =>
    intro q hq hs
    rw [runFrom, runFrom, prune_tlookup d hq (hs c (List.mem_cons_self _ _))]
    cases hl : tlookup d.transitions q c with
    | none => rfl
    | some t =>
      exact ih t (accessible_closed d hq (hs c (List.mem_cons_self _ _)) hl)
        (fun c' hc' => hs c' (List.mem_cons_of_mem _ hc'))

theorem prune_accepts (d : DFA) (s : List String)
    (hs : ∀ c ∈ s, c ∈ d.alphabet) :
    accepts (remove_inaccessible_states d) s = accepts d s := by
  unfold accepts
  have hstart : (remove_inaccessible_states d).start_state = d.start_state := rfl
  rw [hstart, prune_runFrom d s d.start_state (start_accessible d) hs]
  cases hrun : runFrom d d.start_state s with
  | none => rfl
  | some q =>
    have hqacc : q ∈ get_accessible_states d :=
      run_stays_accessible d s d.start_state q (start_accessible d) hs hrun
    show decide (q ∈ (remove_inaccessible_states d).final_states) = _
    have : q ∈ (remove_inaccessible_states d).final_states ↔ q ∈ d.final_states := by
      show q ∈ d.final_states.filter _ ↔ _
      rw [List.mem_filter]
      constructor
      · exact fun h => h.1
      · intro h
        exact ⟨h, by rw [decide_eq_true_eq]; exact hqacc⟩
    show decide (q ∈ (remove_inaccessible_states d).final_states)
        = decide (q ∈ d.final_states)
    exact decide_eq_decide.mpr this

/-! ## The state map of the quotient construction -/

theorem inner_fold_lookup (g : List String) (v : String) :
    ∀ (m : List (String × String)) (x : String),
      dlookup (g.foldl (fun m s => dset m s v) m) x =
        if x ∈ g then some v else dlookup m x := by
  induction g with
  | nil => intro m x; simp
  | cons s t ih =>
    intro m x
    rw [List.foldl_cons, ih]
    by_cases hxt : x ∈ t
    · rw [if_pos hxt, if_pos (List.mem_cons_of_mem _ hxt)]
    · rw [if_neg hxt]
      by_cases hxs : x = s
      · subst hxs
        rw [dlookup_dset_self, if_pos (List.mem_cons_self _ _)]
      · rw [dlookup_dset_ne m s v hxs,
          if_neg (fun hc => (List.mem_cons.mp hc).elim hxs hxt)]

theorem buildMap_untouched :
    ∀ (l : List (Nat × List String)) (m : List (String × String)) (x : String),
      (∀ e ∈ l, x ∉ e.2) →
      dlookup (l.foldl
        (fun m e => e.2.foldl (fun m s => dset m s ("q" ++ Nat.repr e.1)) m) m) x =
        dlookup m x := by
  intro l
  induction l with
  | nil => intro m x _; rfl
  | cons e t ih =>
    intro m x hx
    rw [List.foldl_cons, ih _ x (fun e' he' => hx e' (List.mem_cons_of_mem _ he')),
      inner_fold_lookup, if_neg (hx e (List.mem_cons_self _ _))]

theorem buildMap_lookup :
    ∀ (l : List (Nat × List String)) (m : List (String × String)) (x : String)
      (i : Nat), (∃ g, (i, g) ∈ l ∧ x ∈ g) → (∀ e ∈ l, x ∈ e.2 → e.1 = i) →
      dlookup (l.foldl
        (fun m e => e.2.foldl (fun m s => dset m s ("q" ++ Nat.repr e.1)) m) m) x =
        some ("q" ++ Nat.repr i) := by
  intro l
  induction l with
  | nil =>
    intro m x i hex _
    obtain ⟨g, hg, _⟩ := hex
    cases hg
  | cons e t ih =>
    intro m x i hex huniq
    rw [List.foldl_cons]
    by_cases hxt : ∃ e' ∈ t, x ∈ e'.2
    · obtain ⟨e', he', hxe'⟩ := hxt
      have hei : e'.1 = i := huniq e' (List.mem_cons_of_mem _ he') hxe'
      refine ih _ x i ⟨e'.2, ?_, hxe'⟩
        (fun e'' h'' hx'' => huniq e'' (List.mem_cons_of_mem _ h'') hx'')
      rw [← hei]
      exact he'
    · push_neg at hxt
      rw [buildMap_untouched t _ x hxt]
      obtain ⟨g, hg, hxg⟩ := hex
      rcases List.mem_cons.mp hg with heq | hgt
      · have he1 : e.1 = i := by rw [← heq]
        have he2 : x ∈ e.2 := by rw [← heq]; exact hxg
        rw [inner_fold_lookup, if_pos he2, he1]
      · exact absurd hxg (hxt (i, g) hgt)

theorem groupsDisjoint_get {pt : List (List String)} (hdisj : GroupsDisjoint pt)
    {i j : Nat} (hi : i < pt.length) (hj : j < pt.length) (hij : i ≠ j)
    {x : String} (hx : x ∈ pt.get ⟨i, hi⟩) : x ∉ pt.get ⟨j, hj⟩ := by
  rw [GroupsDisjoint, List.pairwise_iff_get] at hdisj
  rcases Nat.lt_or_ge i j with h | h
  · exact hdisj ⟨i, hi⟩ ⟨j, hj⟩ h x hx
  · have hji : j < i := by omega
    intro hxj
    exact hdisj ⟨j, hj⟩ ⟨i, hi⟩ hji x hxj hx

theorem state_map_lookup (pt : List (List String)) (hdisj : GroupsDisjoint pt)
    {i : Nat} (hi : i < pt.length) {x : String} (hx : x ∈ pt.get ⟨i, hi⟩) :
    dlookup (state_map pt) x = some ("q" ++ Nat.repr i) := by
  apply buildMap_lookup pt.enum [] x i
  · refine ⟨pt.get ⟨i, hi⟩, ?_, hx⟩
    rw [List.mem_enum_iff_get?]
    exact List.get?_eq_get hi
  · rintro ⟨j, g⟩ hjg hxg
    rw [List.mem_enum_iff_get?] at hjg
    have hj : j < pt.length := by
      by_contra hc
      rw [List.get?_eq_none.mpr (by omega)] at hjg
      cases hjg
    rw [List.get?_eq_get hj] at hjg
    injection hjg with hjg
    show j = i
    by_contra hij
    exact groupsDisjoint_get hdisj hi hj (fun h => hij h.symm) hx (hjg ▸ hxg)

theorem smap_eq (pt : List (List String)) (hdisj : GroupsDisjoint pt)
    {i : Nat} (hi : i < pt.length) {x : String} (hx : x ∈ pt.get ⟨i, hi⟩) :
    smap pt x = "q" ++ Nat.repr i := by
  rw [smap, state_map_lookup pt hdisj hi hx]
  rfl

theorem smap_group_inj (pt : List (List String)) (hdisj : GroupsDisjoint pt)
    {i j : Nat} (hi : i < pt.length) (hj : j < pt.length) {x y : String}
    (hx : x ∈ pt.get ⟨i, hi⟩) (hy : y ∈ pt.get ⟨j, hj⟩)
    (h : smap pt x = smap pt y) : i = j := by
  rw [smap_eq pt hdisj hi hx, smap_eq pt hdisj hj hy] at h
  exact append_repr_injective "q" h

/-! ## Signatures, pointwise -/

theorem groupIdx_isSome_of_mem {pt : List (List String)} {t : String}
    (h : ∃ g ∈ pt, t ∈ g) : (groupIdx pt t).isSome := by
  induction pt with
  | nil => obtain ⟨g, hg, _⟩ := h; cases hg
  | cons g gs ih =>
    rw [groupIdx]
    by_cases hm : t ∈ g
    · rw [if_pos hm]; rfl
    · rw [if_neg hm]
      obtain ⟨g', hg', ht⟩ := h
      rcases List.mem_cons.mp hg' with rfl | hgs
      · exact absurd ht hm
      · have := ih ⟨g', hgs, ht⟩
        cases hx : groupIdx gs t with
        | none => rw [hx] at this; cases this
        | some i => rfl

theorem groupIdx_mem {pt : List (List String)} {t : String} {i : Nat}
    (h : groupIdx pt t = some i) : ∃ hi : i < pt.length, t ∈ pt.get ⟨i, hi⟩ := by
  induction pt generalizing i with
  | nil => cases h
  | cons g gs ih =>
    rw [groupIdx] at h
    by_cases hm : t ∈ g
    · rw [if_pos hm] at h
      injection h with h
      subst h
      exact ⟨by simp, hm⟩
    · rw [if_neg hm] at h
      cases hx : groupIdx gs t with
      | none => rw [hx] at h; cases h
      | some j =>
        rw [hx] at h
        simp only [Option.map] at h
        injection h with h
        obtain ⟨hj, hmem⟩ := ih hx
        subst h
        exact ⟨by simpa using hj, by simpa using hmem⟩

/-- The signature entry of one symbol, as an integer (group index of the
successor, or `-1` when no transition is defined; arbitrary when the successor
lies in no group, which cannot happen in `minimize`). -/
def sigVal (d : DFA) (pt : List (List String)) (z sym : String) : Int :=
  match tlookup d.transitions z sym with
  | some t =>
    match groupIdx pt t with
    | some i => (i : Int)
    | none => -1
  | none => -1

theorem signature_eq_map (d : DFA) (pt : List (List String)) (z : String)
    (hz : ∀ sym t, tlookup d.transitions z sym = some t → (groupIdx pt t).isSome) :
    signature d pt z = d.alphabet.map (fun sym => (sym, sigVal d pt z sym)) := by
  have key : ∀ (l : List String) (acc : List (String × Int)),
      l.foldl (fun sig symbol =>
        match tlookup d.transitions z symbol with
        | some nxt =>
          match groupIdx pt nxt with
          | some i => sig ++ [(symbol, (i : Int))]
          | none => sig
        | none => sig ++ [(symbol, (-1 : Int))]) acc =
      acc ++ l.map (fun sym => (sym, sigVal d pt z sym)) := by
    intro l
    induction l with
    | nil => intro acc; simp
    | cons a rest ih =>
      intro acc
      rw [List.foldl_cons]
      cases hl : tlookup d.transitions z a with
      | none =>
        simp only [hl]
        rw [ih, List.map_cons]
        have : sigVal d pt z a = -1 := by simp only [sigVal, hl]
        rw [this]
        simp
      | some t =>
        simp only [hl]
        cases hgi : groupIdx pt t with
        | none =>
          have := hz a t hl
          rw [hgi] at this
          cases this
        | some i =>
          simp only [hgi]
          rw [ih, List.map_cons]
          have : sigVal d pt z a = (i : Int) := by simp only [sigVal, hl, hgi]
          rw [this]
          simp
  exact key d.alphabet []

theorem signature_pointwise (d : DFA) (pt : List (List String)) {z₁ z₂ : String}
    (h1 : ∀ sym t, tlookup d.transitions z₁ sym = some t → (groupIdx pt t).isSome)
    (h2 : ∀ sym t, tlookup d.transitions z₂ sym = some t → (groupIdx pt t).isSome)
    (heq : signature d pt z₁ = signature d pt z₂) :
    ∀ sym ∈ d.alphabet, sigVal d pt z₁ sym = sigVal d pt z₂ sym := by
  rw [signature_eq_map d pt z₁ h1, signature_eq_map d pt z₂ h2] at heq
  intro sym hsym
  have := List.map_eq_map_iff.mp heq sym hsym
  exact congrArg Prod.snd this

/-! ## Correctness of the quotient construction -/

/-- The facts available about the pruned automaton and its final partition
when `create_minimized_dfa` runs inside `minimize`. -/
def QuotCtx (d : DFA) (P : List (List String)) : Prop :=
  GroupsDisjoint P ∧
  (∀ x ∈ d.states, ∃ g ∈ P, x ∈ g) ∧
  (∀ g ∈ P, ∀ x ∈ g, x ∈ d.states) ∧
  (∀ g ∈ P, ∀ x ∈ g, ∀ y ∈ g, signature d P x = signature d P y) ∧
  (∀ e ∈ d.transitions, e.1.1 ∈ d.states ∧ e.2 ∈ d.states) ∧
  (d.transitions.map Prod.fst).Nodup

theorem ctx_groupIdx {d : DFA} {P : List (List String)} (h : QuotCtx d P) :
    ∀ z sym t, tlookup d.transitions z sym = some t → (groupIdx P t).isSome := by
  intro z sym t hl
  obtain ⟨e, he, _, he2⟩ := tlookup_mem hl
  exact groupIdx_isSome_of_mem (h.2.1 t (he2 ▸ (h.2.2.2.2.1 e he).2))

theorem ctx_sig_of_smap_eq {d : DFA} {P : List (List String)} (h : QuotCtx d P)
    {x y : String} (hx : x ∈ d.states) (hy : y ∈ d.states)
    (heq : smap P x = smap P y) : signature d P x = signature d P y := by
  obtain ⟨gx, hgx, hxg⟩ := h.2.1 x hx
  obtain ⟨gy, hgy, hyg⟩ := h.2.1 y hy
  obtain ⟨⟨i, hi⟩, rfl⟩ := List.mem_iff_get.mp hgx
  obtain ⟨⟨j, hj⟩, rfl⟩ := List.mem_iff_get.mp hgy
  have hij : i = j := smap_group_inj P h.1 hi hj hxg hyg heq
  subst hij
  exact h.2.2.2.1 _ (List.get_mem P i hi) x hxg y hyg

theorem smap_of_groupIdx {P : List (List String)} (hdisj : GroupsDisjoint P)
    {t : String} {i : Nat} (h : groupIdx P t = some i) :
    smap P t = "q" ++ Nat.repr i := by
  obtain ⟨hi, hmem⟩ := groupIdx_mem h
  exact smap_eq P hdisj hi hmem

theorem foldWrite_untouched (P : List (List String)) :
    ∀ (l m : List ((String × String) × String)) (key : String × String),
      (∀ e ∈ l, (smap P e.1.1, e.1.2) ≠ key) →
      dlookup (l.foldl (fun nt e => dset nt (smap P e.1.1, e.1.2) (smap P e.2)) m)
          key = dlookup m key := by
  intro l
  induction l with
  | nil => intro m key _; rfl
  | cons e t ih =>
    intro m key hk
    rw [List.foldl_cons, ih _ key (fun e' he' => hk e' (List.mem_cons_of_mem _ he')),
      dlookup_dset_ne _ _ _ (fun hc => hk e (List.mem_cons_self _ _) hc.symm)]

theorem foldWrite_const (P : List (List String)) :
    ∀ (l m : List ((String × String) × String)) (key : String × String) (v : String),
      (∀ e ∈ l, (smap P e.1.1, e.1.2) = key → smap P e.2 = v) →
      ((∃ e ∈ l, (smap P e.1.1, e.1.2) = key) ∨ dlookup m key = some v) →
      dlookup (l.foldl (fun nt e => dset nt (smap P e.1.1, e.1.2) (smap P e.2)) m)
          key = some v := by
  intro l
  induction l with
  | nil =>
    intro m key v _ hex
    rcases hex with ⟨e, he, _⟩ | hm
    · cases he
    · exact hm
  | cons e t ih =>
    intro m key v hval hex
    rw [List.foldl_cons]
    by_cases hke : (smap P e.1.1, e.1.2) = key
    · refine ih _ key v (fun e' he' => hval e' (List.mem_cons_of_mem _ he')) (Or.inr ?_)
      rw [← hke, dlookup_dset_self]
      rw [hval e (List.mem_cons_self _ _) hke]
    · refine ih _ key v (fun e' he' => hval e' (List.mem_cons_of_mem _ he')) ?_
      rcases hex with ⟨e', he', hk'⟩ | hm
      · rcases List.mem_cons.mp he' with rfl | het
        · exact absurd hk' hke
        · exact Or.inl ⟨e', het, hk'⟩
      · refine Or.inr ?_
        rw [dlookup_dset_ne _ _ _ (fun hc => hke hc.symm)]
        exact hm

theorem quotient_tlookup {d : DFA} {P : List (List String)} (h : QuotCtx d P)
    {q c : String} (hq : q ∈ d.states) (hc : c ∈ d.alphabet) :
    tlookup (create_minimized_dfa d P).transitions (smap P q) c =
      (tlookup d.transitions q c).map (smap P) := by
  have htrans : (create_minimized_dfa d P).transitions =
      d.transitions.foldl (fun nt e => dset nt (smap P e.1.1, e.1.2) (smap P e.2)) [] :=
    rfl
  have hlk : ∀ (trans : List ((String × String) × String)) (a b : String),
      tlookup trans a b = dlookup trans (a, b) := fun _ _ _ => rfl
  rw [htrans, hlk]
  cases hl : tlookup d.transitions q c with
  | some t =>
    obtain ⟨e₀, he₀, he₀1, he₀2⟩ := tlookup_mem hl
    have ht : t ∈ d.states := he₀2 ▸ (h.2.2.2.2.1 e₀ he₀).2
    have hgit : (groupIdx P t).isSome := ctx_groupIdx h q c t hl
    obtain ⟨j, hj⟩ := Option.isSome_iff_exists.mp hgit
    rw [foldWrite_const P d.transitions [] (smap P q, c) (smap P t) ?_ ?_]
    · rfl
    · intro e he hke
      have hec : e.1.2 = c := congrArg Prod.snd hke
      have hesm : smap P e.1.1 = smap P q := congrArg Prod.fst hke
      have he1 : e.1.1 ∈ d.states := (h.2.2.2.2.1 e he).1
      have hsig : signature d P e.1.1 = signature d P q :=
        ctx_sig_of_smap_eq h he1 hq hesm
      have hetl : tlookup d.transitions e.1.1 c = some e.2 := by
        have := tlookup_of_mem h.2.2.2.2.2 he
        rw [hec] at this
        exact this
      have hpw := signature_pointwise d P (ctx_groupIdx h e.1.1) (ctx_groupIdx h q)
        hsig c hc
      have hv1 : sigVal d P e.1.1 c = ((groupIdx P e.2).getD 0 : Int) := by
        have hgie : (groupIdx P e.2).isSome := ctx_groupIdx h e.1.1 c e.2 hetl
        obtain ⟨j', hj'⟩ := Option.isSome_iff_exists.mp hgie
        simp only [sigVal, hetl, hj']
        rfl
      have hv2 : sigVal d P q c = (j : Int) := by simp only [sigVal, hl, hj]
      obtain ⟨j', hj'⟩ := Option.isSome_iff_exists.mp (ctx_groupIdx h e.1.1 c e.2 hetl)
      have : (j' : Int) = (j : Int) := by
        have h1 : sigVal d P e.1.1 c = (j' : Int) := by simp only [sigVal, hetl, hj']
        rw [← h1, hpw, hv2]
      have hjj : j' = j := by exact_mod_cast this
      rw [smap_of_groupIdx h.1 hj', smap_of_groupIdx h.1 hj, hjj]
    · refine Or.inl ⟨e₀, he₀, ?_⟩
      rw [he₀1]
  | none =>
    rw [foldWrite_untouched P d.transitions [] (smap P q, c) ?_]
    · rfl
    · intro e he hke
      have hec : e.1.2 = c := congrArg Prod.snd hke
      have hesm : smap P e.1.1 = smap P q := congrArg Prod.fst hke
      have he1 : e.1.1 ∈ d.states := (h.2.2.2.2.1 e he).1
      have hsig : signature d P e.1.1 = signature d P q :=
        ctx_sig_of_smap_eq h he1 hq hesm
      have hetl : tlookup d.transitions e.1.1 c = some e.2 := by
        have := tlookup_of_mem h.2.2.2.2.2 he
        rw [hec] at this
        exact this
      have hpw := signature_pointwise d P (ctx_groupIdx h e.1.1) (ctx_groupIdx h q)
        hsig c hc
      obtain ⟨j', hj'⟩ := Option.isSome_iff_exists.mp (ctx_groupIdx h e.1.1 c e.2 hetl)
      have h1 : sigVal d P e.1.1 c = (j' : Int) := by simp only [sigVal, hetl, hj']
      have h2 : sigVal d P q c = -1 := by simp only [sigVal, hl]
      rw [h1, h2] at hpw
      omega

theorem quotient_runFrom {d : DFA} {P : List (List String)} (h : QuotCtx d P)
    (s : List String) :
    ∀ q, q ∈ d.states → (∀ c ∈ s, c ∈ d.alphabet) →
      runFrom (create_minimized_dfa d P) (smap P q) s =
        (runFrom d q s).map (smap P) := by
  induction s with
  | nil => intro q _ _; rfl
  | cons c rest ih =>
    intro q hq hs
    rw [runFrom, runFrom, quotient_tlookup h hq (hs c (List.mem_cons_self _ _))]
    cases hl : tlookup d.transitions q c with
    | none => rfl
    | some t =>
      obtain ⟨e, he, _, he2⟩ := tlookup_mem hl
      exact ih t (he2 ▸ (h.2.2.2.2.1 e he).2)
        (fun c' hc' => hs c' (List.mem_cons_of_mem _ hc'))

theorem run_mem_states (d : DFA)
    (htr : ∀ e ∈ d.transitions, e.1.1 ∈ d.states ∧ e.2 ∈ d.states) (s : List String) :
    ∀ q q', q ∈ d.states → runFrom d q s = some q' → q' ∈ d.states := by
  induction s with
  | nil =>
    intro q q' hq hrun
    rw [runFrom] at hrun
    injection hrun with hrun
    exact hrun ▸ hq
  | cons c rest ih =>
    intro q q' hq hrun
    rw [runFrom] at hrun
    cases hl : tlookup d.transitions q c with
    | none => rw [hl] at hrun; cases hrun
    | some t =>
      rw [hl] at hrun
      obtain ⟨e, he, _, he2⟩ := tlookup_mem hl
      exact ih t q' (he2 ▸ (htr e he).2) hrun

theorem quotient_final {d : DFA} {P : List (List String)} (h : QuotCtx d P)
    (hacc : ∀ g ∈ P, (∀ x ∈ g, x ∈ d.final_states) ∨ ∀ x ∈ g, x ∉ d.final_states)
    (hfinsub : ∀ x ∈ d.final_states, x ∈ d.states)
    {q : String} (hq : q ∈ d.states) :
    smap P q ∈ (create_minimized_dfa d P).final_states ↔ q ∈ d.final_states := by
  have hfs : (create_minimized_dfa d P).final_states =
      setOfList (d.final_states.map (smap P)) := rfl
  rw [hfs, mem_setOfList, List.mem_map]
  constructor
  · rintro ⟨y, hy, hsm⟩
    obtain ⟨gy, hgy, hyg⟩ := h.2.1 y (hfinsub y hy)
    obtain ⟨gq, hgq, hqg⟩ := h.2.1 q hq
    obtain ⟨⟨i, hi⟩, rfl⟩ := List.mem_iff_get.mp hgy
    obtain ⟨⟨j, hj⟩, rfl⟩ := List.mem_iff_get.mp hgq
    have hij : i = j := smap_group_inj P h.1 hi hj hyg hqg hsm
    subst hij
    rcases hacc _ (List.get_mem P i hi) with hall | hnone
    · exact hall q hqg
    · exact absurd hy (hnone y hyg)
  · intro hqf
    exact ⟨q, hqf, rfl⟩

/-! ## C2 -/

/-- C2: for every DFA `D` (with the dict/set well-formedness that Python
guarantees: no duplicate transition keys, no duplicate final states) and every
input string over `D`'s alphabet, `D` and `minimize(D)` agree on acceptance:
the runs from the respective start states either both fail or both end, and
they end in final states together. -/
theorem minimize_preserves_acceptance (d : DFA)
    (hkeys : (d.transitions.map Prod.fst).Nodup)
    (hfin : d.final_states.Nodup)
    (s : List String) (hs : ∀ c ∈ s, c ∈ d.alphabet) :
    accepts (minimize d) s = accepts d s := by
  have hmin : minimize d = if (remove_inaccessible_states d).states.length ≤ 1
      then remove_inaccessible_states d
      else create_minimized_dfa (remove_inaccessible_states d)
        (minimize_partition (remove_inaccessible_states d)) := rfl
  rw [← prune_accepts d s hs, hmin]
  by_cases hlen : (remove_inaccessible_states d).states.length ≤ 1
  · rw [if_pos hlen]
  · rw [if_neg hlen]
    have hstates : (remove_inaccessible_states d).states.Nodup :=
      get_accessible_states_nodup d
    have hfinsub : ∀ x ∈ (remove_inaccessible_states d).final_states,
        x ∈ (remove_inaccessible_states d).states := by
      intro x hx
      have := List.of_mem_filter hx
      rw [decide_eq_true_eq] at this
      exact this
    have hfinnd : (remove_inaccessible_states d).final_states.Nodup := hfin.filter _
    obtain ⟨hinv, hhom⟩ := minimize_partition_inv (remove_inaccessible_states d)
      hstates hfinsub hfinnd
    have htr : ∀ e ∈ (remove_inaccessible_states d).transitions,
        e.1.1 ∈ (remove_inaccessible_states d).states ∧
        e.2 ∈ (remove_inaccessible_states d).states := by
      intro e he
      have := List.of_mem_filter he
      rw [decide_eq_true_eq] at this
      exact this
    have hkeysp : ((remove_inaccessible_states d).transitions.map Prod.fst).Nodup := by
      have hsb : (remove_inaccessible_states d).transitions.Sublist d.transitions :=
        List.filter_sublist _
      exact List.Nodup.sublist (List.Sublist.map Prod.fst hsb) hkeys
    have hctx : QuotCtx (remove_inaccessible_states d)
        (minimize_partition (remove_inaccessible_states d)) :=
      ⟨hinv.2.2.1, hinv.2.2.2.2.1, hinv.2.2.2.1, hhom, htr, hkeysp⟩
    unfold accepts
    have hstartmem : (remove_inaccessible_states d).start_state ∈
        (remove_inaccessible_states d).states := start_accessible d
    have hstart : (create_minimized_dfa (remove_inaccessible_states d)
        (minimize_partition (remove_inaccessible_states d))).start_state =
        smap (minimize_partition (remove_inaccessible_states d))
          (remove_inaccessible_states d).start_state := rfl
    rw [hstart, quotient_runFrom hctx s (remove_inaccessible_states d).start_state
      hstartmem hs]
    cases hrun : runFrom (remove_inaccessible_states d)
        (remove_inaccessible_states d).start_state s with
    | none => rfl
    | some qe =>
      have hqe : qe ∈ (remove_inaccessible_states d).states :=
        run_mem_states (remove_inaccessible_states d) htr s _ qe hstartmem hrun
      show decide (smap (minimize_partition (remove_inaccessible_states d)) qe ∈
          (create_minimized_dfa (remove_inaccessible_states d)
            (minimize_partition (remove_inaccessible_states d))).final_states) =
        decide (qe ∈ (remove_inaccessible_states d).final_states)
      exact decide_eq_decide.mpr
        (quotient_final hctx hinv.2.2.2.2.2 hfinsub hqe)

/-! ## Concrete inputs used by the claims -/

/-- The bodies of `v` in grammar `g` (`g.productions[v]`, `[]` if absent). -/
def bodiesOf (g : CFG) (v : String) : List (List Char) :=
  (dlookup g.productions v).getD []

/-- Well-formed grammar with the single production `S → ab`. -/
def G_ab : CFG := ⟨["S"], ["a", "b"], [("S", ["ab".data])], "S"⟩

/-- Well-formed grammar `S → B`, `B → b | ε` (nullable start symbol). -/
def G_SB : CFG := ⟨["S", "B"], ["b"], [("S", ["B".data]), ("B", ["b".data, []])], "S"⟩

/-- Well-formed grammar with the single production `S → abcd` (the spec's
concrete scenario 4). -/
def G_abcd : CFG := ⟨["S"], ["a", "b", "c", "d"], [("S", ["abcd".data])], "S"⟩

/-- A malformed automaton: its start state `q0` is absent from `states`. -/
def D_bad : DFA := ⟨["q1"], [], [], "q0", []⟩

/-- A 3-state chain DFA accepting exactly the empty string: `q1` and `q2` are
language-equivalent (both accept nothing) but differ in whether a transition
on `a` is defined. -/
def D_chain : DFA :=
  ⟨["q0", "q1", "q2"], ["a"], [(("q0", "a"), "q1"), (("q1", "a"), "q2")], "q0", ["q0"]⟩

/-- A single-state DFA accepting exactly the empty string. -/
def D_one : DFA := ⟨["p"], ["a"], [], "p", ["p"]⟩

/-- The "binary strings ending in 01" DFA from the repository's tests. -/
def D01 : DFA :=
  ⟨["q0", "q1", "q2", "q3"], ["0", "1"],
    [(("q0", "0"), "q1"), (("q0", "1"), "q3"), (("q1", "0"), "q1"),
     (("q1", "1"), "q2"), (("q2", "0"), "q1"), (("q2", "1"), "q3"),
     (("q3", "0"), "q1"), (("q3", "1"), "q3")], "q0", ["q2"]⟩

/-- Witness for C2: the acceptance-equivalence theorem applied to the
test-suite's "ends in 01" DFA and the string "01". -/
theorem minimize_preserves_acceptance_witness :
    ((D01.transitions.map Prod.fst).Nodup ∧ D01.final_states.Nodup ∧
      ∀ c ∈ ["0", "1"], c ∈ D01.alphabet) ∧
    accepts (minimize D01) ["0", "1"] = accepts D01 ["0", "1"] :=
  ⟨by decide, minimize_preserves_acceptance D01 (by decide) (by decide)
    ["0", "1"] (by decide)⟩

/-! ## C5 -/

theorem setAdd_length_le {α : Type} [DecidableEq α] (s : List α) (x : α) :
    (setAdd s x).length ≤ s.length + 1 := by
  unfold setAdd
  by_cases h : x ∈ s
  · rw [if_pos h]; omega
  · rw [if_neg h]; simp

theorem setOfList_length_le {α : Type} [DecidableEq α] (l : List α) :
    (setOfList l).length ≤ l.length := by
  have key : ∀ (l acc : List α), (l.foldl setAdd acc).length ≤ acc.length + l.length := by
    intro l
    induction l with
    | nil => intro acc; simp
    | cons a t ih =>
      intro acc
      rw [List.foldl_cons]
      have h1 := ih (setAdd acc a)
      have h2 := setAdd_length_le acc a
      simp only [List.length_cons]
      omega
  have := key l []
  simpa using this

/-- C5, counterexample: on the 3-state chain DFA `D_chain` (accepting exactly
the empty string), `minimize` returns a 3-state automaton, yet the 1-state
automaton `D_one` recognizes the same language — so `minimize(D_chain)` does
*not* have a state count ≤ that of every DFA recognizing the same language.
The states `q1` and `q2` of `D_chain` are language-equivalent but differ in
whether a transition on `a` is defined, and the signature refinement keeps
them apart (the `-1` sentinel distinguishes "no transition" from any
transition). -/
theorem minimize_not_minimal :
    (∀ s : List String, (∀ c ∈ s, c ∈ D_chain.alphabet) →
      accepts D_chain s = accepts D_one s) ∧
    (minimize D_chain).states.length = 3 ∧
    D_one.states.length < (minimize D_chain).states.length := by
  refine ⟨?_, by decide, by decide⟩
  intro s hs
  cases s with
  | nil => rfl
  | cons c1 s1 =>
    have hc1 : c1 = "a" := by simpa [D_chain] using hs c1 (List.mem_cons_self _ _)
    subst hc1
    cases s1 with
    | nil => rfl
    | cons c2 s2 =>
      have hc2 : c2 = "a" := by simpa [D_chain] using hs c2 (by simp)
      subst hc2
      cases s2 with
      | nil => rfl
      | cons c3 s3 =>
        have hc3 : c3 = "a" := by simpa [D_chain] using hs c3 (by simp)
        subst hc3
        rfl

/-- C5, amended: `minimize(D)` has a state count less than or equal to the
number of states of `D` reachable from the start state (the pruned state
count); it is not minimal among all DFAs recognizing the same language, since
language-equivalent states differing in transition-definedness are kept
apart. -/
theorem minimize_state_count_le (d : DFA) :
    (minimize d).states.length ≤ (get_accessible_states d).length := by
  have hmin : minimize d = if (remove_inaccessible_states d).states.length ≤ 1
      then remove_inaccessible_states d
      else create_minimized_dfa (remove_inaccessible_states d)
        (minimize_partition (remove_inaccessible_states d)) := rfl
  rw [hmin]
  by_cases hlen : (remove_inaccessible_states d).states.length ≤ 1
  · rw [if_pos hlen]
    exact Nat.le_refl _
  · rw [if_neg hlen]
    show (setOfList ((remove_inaccessible_states d).states.map _)).length ≤ _
    calc (setOfList ((remove_inaccessible_states d).states.map
          (smap (minimize_partition (remove_inaccessible_states d))))).length
        ≤ ((remove_inaccessible_states d).states.map
            (smap (minimize_partition (remove_inaccessible_states d)))).length :=
          setOfList_length_le _
      _ = (get_accessible_states d).length := List.length_map _ _

/-! ## C7 -/

/-- One-step/multi-step derivation in a (character-symbol) grammar: rewrite a
character whose one-character name has a production, by one of its bodies. -/
inductive Derives (g : CFG) : List Char → List Char → Prop
  | refl (w : List Char) : Derives g w w
  | step {w u v : List Char} {c : Char} {b : List Char} :
      Derives g w (u ++ [c] ++ v) → b ∈ bodiesOf g (charStr c) →
      Derives g w (u ++ b ++ v)

theorem derives_congr {g₁ g₂ : CFG}
    (h : ∀ v b, b ∈ bodiesOf g₁ v ↔ b ∈ bodiesOf g₂ v) {w w' : List Char}
    (hd : Derives g₁ w w') : Derives g₂ w w' := by
  induction hd with
  | refl => exact Derives.refl _
  | step _ hb ih => exact Derives.step ih ((h _ _).mp hb)

theorem dlookup_of_mem_nodup {κ ν : Type} [DecidableEq κ]
    {l : List (κ × ν)} (hnd : (l.map Prod.fst).Nodup) {e : κ × ν} (he : e ∈ l) :
    dlookup l e.1 = some e.2 := by
  induction l with
  | nil => cases he
  | cons a t ih =>
    rw [List.map_cons, List.nodup_cons] at hnd
    rcases List.mem_cons.mp he with rfl | het
    · exact dlookup_cons_self rfl
    · have hne : a.1 ≠ e.1 := by
        intro hc
        exact hnd.1 (hc ▸ List.mem_map_of_mem Prod.fst het)
      rw [dlookup_cons_ne hne]
      exact ih hnd.2 het

theorem dlookup_some_mem {κ ν : Type} [DecidableEq κ] {l : List (κ × ν)} {k : κ}
    {v : ν} (h : dlookup l k = some v) : ∃ e ∈ l, e.1 = k ∧ e.2 = v := by
  unfold dlookup at h
  cases hf : l.find? (fun e => e.1 = k) with
  | none => rw [hf] at h; cases h
  | some e =>
    rw [hf] at h
    refine ⟨e, List.mem_of_find?_eq_some hf, ?_, ?_⟩
    · simpa using List.find?_some hf
    · simpa using h

theorem dlookup_dappend_self {κ ν : Type} [DecidableEq κ]
    (np : List (κ × List ν)) (k : κ) (x : ν) :
    dlookup (dappend np k x) k = (dlookup np k).map (fun l => l ++ [x]) := by
  induction np with
  | nil => rfl
  | cons e t ih =>
    rw [dappend, List.map_cons]
    by_cases he : e.1 = k
    · rw [if_pos he, dlookup_cons_self he, dlookup_cons_self (by simpa using he)]
      rfl
    · rw [if_neg he, dlookup_cons_ne he, dlookup_cons_ne he]
      exact ih

theorem dlookup_dappend_ne {κ ν : Type} [DecidableEq κ]
    (np : List (κ × List ν)) (k : κ) (x : ν) {w : κ} (h : w ≠ k) :
    dlookup (dappend np k x) w = dlookup np w := by
  induction np with
  | nil => rfl
  | cons e t ih =>
    rw [dappend, List.map_cons]
    by_cases he : e.1 = k
    · rw [if_pos he]
      have h1 : e.1 ≠ w := by rw [he]; exact fun hc => h hc.symm
      have h2 : ((e.1, e.2 ++ [x]) : κ × List ν).1 ≠ w := h1
      rw [dlookup_cons_ne h2, dlookup_cons_ne h1]
      exact ih
    · rw [if_neg he]
      by_cases hw : e.1 = w
      · rw [dlookup_cons_self hw, dlookup_cons_self hw]
      · rw [dlookup_cons_ne hw, dlookup_cons_ne hw]
        exact ih

theorem dlookup_dappend_isSome {κ ν : Type} [DecidableEq κ]
    (np : List (κ × List ν)) (k : κ) (x : ν) (w : κ) :
    (dlookup (dappend np k x) w).isSome = (dlookup np w).isSome := by
  by_cases hw : w = k
  · subst hw
    rw [dlookup_dappend_self]
    cases dlookup np w <;> rfl
  · rw [dlookup_dappend_ne np k x hw]

theorem newProd_no_omissions (prod : List Char) : newProd prod [] = prod := by
  have h1 : (fun e : Nat × Char => if e.1 ∈ ([] : List Nat) then none else some e.2)
      = some ∘ Prod.snd := by
    funext e
    rw [if_neg (List.not_mem_nil e.1)]
    rfl
  rw [newProd, h1, List.filterMap_eq_map, List.enum_eq_enumFrom,
    List.enumFrom_map_snd]

theorem nullableSet_nil {prods : List (String × List (List Char))}
    (hnoeps : ∀ e ∈ prods, [] ∉ e.2) : nullableSet prods = [] := by
  have hpass : nullablePass prods [] = [] := by
    have key : ∀ (l : List (String × List (List Char))), (∀ e ∈ l, [] ∉ e.2) →
        l.foldl (fun nl e =>
          if e.1 ∈ nl then nl
          else if [] ∈ e.2 then nl ++ [e.1]
          else if e.2.any (fun b => b.all (fun c => decide (charStr c ∈ nl))) then
            nl ++ [e.1]
          else nl) [] = [] := by
      intro l
      induction l with
      | nil => intro _; rfl
      | cons e t ih =>
        intro h
        rw [List.foldl_cons]
        have h1 : e.1 ∉ ([] : List String) := List.not_mem_nil _
        have h2 : [] ∉ e.2 := h e (List.mem_cons_self _ _)
        have h3 : e.2.any
            (fun b => b.all (fun c => decide (charStr c ∈ ([] : List String))))
            = false := by
          rw [List.any_eq_false]
          intro b hb
          cases b with
          | nil => exact absurd hb h2
          | cons c bt => simp
        rw [if_neg h1, if_neg h2, h3]
        exact ih (fun e' he' => h e' (List.mem_cons_of_mem _ he'))
    exact key prods hnoeps
  rw [nullableSet, nullableFix, hpass]
  rfl

theorem nullableIndices_nil (prod : List Char) : nullableIndices [] prod = [] := by
  rw [nullableIndices, List.filterMap_eq_nil]
  intro ic _
  rw [if_neg (List.not_mem_nil _)]

theorem epsBodyStep_no_nullable (v : String) (np : List (String × List (List Char)))
    {prod : List Char} (hprod : prod ≠ []) :
    epsBodyStep [] v np prod =
      if prod ∈ (dlookup np v).getD [] then np else dappend np v prod := by
  rw [epsBodyStep, if_neg hprod, nullableIndices_nil]
  have hr : List.range (2 ^ (List.length ([] : List Nat))) = [0] := rfl
  rw [hr]
  simp only [List.foldl_cons, List.foldl_nil]
  have homit : omitSet 0 ([] : List Nat) = [] := rfl
  rw [homit, newProd_no_omissions]
  by_cases hmem : prod ∈ (dlookup np v).getD []
  · rw [if_neg (fun hc => hc.2 hmem), if_pos hmem]
  · rw [if_pos ⟨hprod, hmem⟩, if_neg hmem]

theorem epsStep_mem (v : String) {prod : List Char} (hprod : prod ≠ [])
    (np : List (String × List (List Char))) (hv : (dlookup np v).isSome)
    (w : String) (b' : List Char) :
    b' ∈ (dlookup (epsBodyStep [] v np prod) w).getD [] ↔
      b' ∈ (dlookup np w).getD [] ∨ (w = v ∧ b' = prod) := by
  rw [epsBodyStep_no_nullable v np hprod]
  by_cases hmem : prod ∈ (dlookup np v).getD []
  · rw [if_pos hmem]
    constructor
    · exact Or.inl
    · rintro (h | ⟨rfl, rfl⟩)
      · exact h
      · exact hmem
  · rw [if_neg hmem]
    by_cases hw : w = v
    · subst hw
      rw [dlookup_dappend_self]
      obtain ⟨cur, hcur⟩ := Option.isSome_iff_exists.mp hv
      rw [hcur]
      show b' ∈ cur ++ [prod] ↔ b' ∈ (some cur).getD [] ∨ _
      rw [List.mem_append, List.mem_singleton]
      constructor
      · rintro (h | rfl)
        · exact Or.inl h
        · exact Or.inr ⟨rfl, rfl⟩
      · rintro (h | ⟨_, rfl⟩)
        · exact Or.inl h
        · exact Or.inr rfl
    · rw [dlookup_dappend_ne _ _ _ hw]
      constructor
      · exact Or.inl
      · rintro (h | ⟨rfl, _⟩)
        · exact h
        · exact absurd rfl hw

theorem epsFold_isSome (v : String) (prod : List Char) (ni : List Nat)
    (idxs : List Nat) :
    ∀ (np : List (String × List (List Char))) (w : String),
      (dlookup (idxs.foldl (fun np i =>
        if newProd prod (omitSet i ni) ≠ [] ∧
            newProd prod (omitSet i ni) ∉ (dlookup np v).getD [] then
          dappend np v (newProd prod (omitSet i ni))
        else np) np) w).isSome = (dlookup np w).isSome := by
  induction idxs with
  | nil => intro np w; rfl
  | cons i rest ih =>
    intro np w
    rw [List.foldl_cons]
    by_cases hc : newProd prod (omitSet i ni) ≠ [] ∧
        newProd prod (omitSet i ni) ∉ (dlookup np v).getD []
    · rw [if_pos hc, ih]
      exact dlookup_dappend_isSome _ _ _ _
    · rw [if_neg hc, ih]

theorem epsBodyStep_isSome (nullable : List String) (v : String)
    (np : List (String × List (List Char))) (prod : List Char) (w : String) :
    (dlookup (epsBodyStep nullable v np prod) w).isSome = (dlookup np w).isSome := by
  rw [epsBodyStep]
  by_cases hprod : prod = []
  · rw [if_pos hprod]
  · rw [if_neg hprod]
    exact epsFold_isSome v prod (nullableIndices nullable prod) _ np w

theorem epsBodies_isSome (v : String) (bs : List (List Char)) :
    ∀ (np : List (String × List (List Char))) (u : String),
      (dlookup (bs.foldl (epsBodyStep [] v) np) u).isSome = (dlookup np u).isSome := by
  induction bs with
  | nil => intro np u; rfl
  | cons b bt ihb =>
    intro np u
    rw [List.foldl_cons, ihb, epsBodyStep_isSome]

theorem epsBodies_mem (v : String) (bs : List (List Char))
    (hbs : ∀ b ∈ bs, b ≠ []) :
    ∀ (np : List (String × List (List Char))), (dlookup np v).isSome →
      ∀ w b', b' ∈ (dlookup (bs.foldl (epsBodyStep [] v) np) w).getD [] ↔
        b' ∈ (dlookup np w).getD [] ∨ (w = v ∧ b' ∈ bs) := by
  induction bs with
  | nil =>
    intro np _ w b'
    constructor
    · exact Or.inl
    · rintro (h | ⟨_, hc⟩)
      · exact h
      · cases hc
  | cons prod rest ih =>
    intro np hv w b'
    rw [List.foldl_cons]
    have hv₂ : (dlookup (epsBodyStep [] v np prod) v).isSome := by
      rw [epsBodyStep_isSome]
      exact hv
    rw [ih (fun b hb => hbs b (List.mem_cons_of_mem _ hb)) _ hv₂ w b',
      epsStep_mem v (hbs prod (List.mem_cons_self _ _)) np hv w b']
    constructor
    · rintro ((h | ⟨rfl, rfl⟩) | ⟨rfl, hr⟩)
      · exact Or.inl h
      · exact Or.inr ⟨rfl, List.mem_cons_self _ _⟩
      · exact Or.inr ⟨rfl, List.mem_cons_of_mem _ hr⟩
    · rintro (h | ⟨rfl, hm⟩)
      · exact Or.inl (Or.inl h)
      · rcases List.mem_cons.mp hm with rfl | hr
        · exact Or.inl (Or.inr ⟨rfl, rfl⟩)
        · exact Or.inr ⟨rfl, hr⟩

theorem dlookup_dinit {κ : Type} [DecidableEq κ] (keys : List κ) (w : κ) {v : List (List Char)}
    (h : dlookup (dinit keys) w = some v) : v = [] := by
  induction keys with
  | nil => cases h
  | cons k t ih =>
    rw [dinit, List.map_cons] at h
    by_cases hk : k = w
    · rw [dlookup_cons_self hk] at h
      injection h with h
      exact h.symm
    · rw [dlookup_cons_ne hk] at h
      exact ih h

theorem dlookup_dinit_mem {κ ν : Type} [DecidableEq κ] {keys : List κ} {w : κ}
    (h : w ∈ keys) :
    dlookup (dinit keys : List (κ × List ν)) w = some [] := by
  induction keys with
  | nil => cases h
  | cons k t ih =>
    rw [dinit, List.map_cons]
    by_cases hk : k = w
    · exact dlookup_cons_self hk
    · rw [dlookup_cons_ne hk]
      exact ih (by rcases List.mem_cons.mp h with rfl | ht; exact absurd rfl hk; exact ht)

theorem epsNewProductions_mem (prods : List (String × List (List Char)))
    (vars : List String)
    (hkv : ∀ e ∈ prods, e.1 ∈ vars)
    (hnoeps : ∀ e ∈ prods, [] ∉ e.2) :
    ∀ w b', b' ∈ (dlookup (epsNewProductions prods vars []) w).getD [] ↔
      ∃ e ∈ prods, e.1 = w ∧ b' ∈ e.2 := by
  have key : ∀ (l : List (String × List (List Char)))
      (np : List (String × List (List Char))),
      (∀ e ∈ l, (dlookup np e.1).isSome) →
      (∀ e ∈ l, [] ∉ e.2) →
      ∀ w b', b' ∈ (dlookup (l.foldl (fun np e => e.2.foldl (epsBodyStep [] e.1) np) np)
          w).getD [] ↔
        b' ∈ (dlookup np w).getD [] ∨ ∃ e ∈ l, e.1 = w ∧ b' ∈ e.2 := by
    intro l
    induction l with
    | nil =>
      intro np _ _ w b'
      constructor
      · exact Or.inl
      · rintro (h | ⟨e, he, _⟩)
        · exact h
        · cases he
    | cons e t ih =>
      intro np hsome hne w b'
      rw [List.foldl_cons]
      rw [ih _ (fun e' he' => by
          rw [epsBodies_isSome]
          exact hsome e' (List.mem_cons_of_mem _ he'))
        (fun e' he' => hne e' (List.mem_cons_of_mem _ he')),
        epsBodies_mem e.1 e.2 (fun b hb => by
          intro hc
          exact hne e (List.mem_cons_self _ _) (hc ▸ hb)) np
          (hsome e (List.mem_cons_self _ _)) w b']
      constructor
      · rintro ((h | ⟨rfl, hm⟩) | ⟨e', he', rfl, hm⟩)
        · exact Or.inl h
        · exact Or.inr ⟨e, List.mem_cons_self _ _, rfl, hm⟩
        · exact Or.inr ⟨e', List.mem_cons_of_mem _ he', rfl, hm⟩
      · rintro (h | ⟨e', he', rfl, hm⟩)
        · exact Or.inl (Or.inl h)
        · rcases List.mem_cons.mp he' with rfl | ht
          · exact Or.inl (Or.inr ⟨rfl, hm⟩)
          · exact Or.inr ⟨e', ht, rfl, hm⟩
  intro w b'
  rw [epsNewProductions, key prods (dinit vars)
    (fun e he => by rw [dlookup_dinit_mem (hkv e he)]; rfl) hnoeps w b']
  constructor
  · rintro (h | h)
    · exfalso
      cases hx : dlookup (dinit vars : List (String × List (List Char))) w with
      | none => rw [hx] at h; cases h
      | some vv =>
        rw [hx] at h
        rw [dlookup_dinit vars w hx] at h
        cases h
    · exact h
  · exact Or.inr

/-- C7: applying `eliminate_epsilon_productions` (on a freshly constructed
converter) to a grammar without ε-bodies returns a grammar with exactly the
same per-variable body membership — hence generating the same language (the
derivation relation depends only on body membership) — with no ε-bodies, the
start symbol unchanged, and no start variable synthesized (the converter,
including its variable set and fresh-name counter, is returned unchanged). -/
theorem eliminate_epsilon_idempotent (G : CFG)
    (hkeys : (G.productions.map Prod.fst).Nodup)
    (hkv : ∀ e ∈ G.productions, e.1 ∈ G.variables')
    (hnoeps : ∀ e ∈ G.productions, [] ∉ e.2) :
    (∀ v b, b ∈ bodiesOf (eliminate_epsilon_productions (mkConverter G)).1 v ↔
      b ∈ bodiesOf G v) ∧
    (∀ v, [] ∉ bodiesOf (eliminate_epsilon_productions (mkConverter G)).1 v) ∧
    (eliminate_epsilon_productions (mkConverter G)).1.start_symbol = G.start_symbol ∧
    (eliminate_epsilon_productions (mkConverter G)).1.variables' = G.variables' ∧
    (eliminate_epsilon_productions (mkConverter G)).2 = mkConverter G ∧
    ∀ w w', Derives (eliminate_epsilon_productions (mkConverter G)).1 w w' ↔
      Derives G w w' := by
  have hnl : nullableSet G.productions = [] := nullableSet_nil hnoeps
  have hcond : G.start_symbol ∉ nullableSet G.productions := by
    rw [hnl]
    exact List.not_mem_nil _
  have heq : eliminate_epsilon_productions (mkConverter G) =
      (⟨G.variables', G.terminals,
        epsNewProductions G.productions G.variables' [], G.start_symbol⟩,
       mkConverter G) := by
    simp only [eliminate_epsilon_productions, mkConverter]
    rw [if_neg hcond, hnl]
  have hmem : ∀ v b, b ∈ bodiesOf (eliminate_epsilon_productions (mkConverter G)).1 v ↔
      b ∈ bodiesOf G v := by
    intro v b
    rw [heq]
    show b ∈ (dlookup (epsNewProductions G.productions G.variables' []) v).getD [] ↔ _
    rw [epsNewProductions_mem G.productions G.variables' hkv hnoeps v b]
    constructor
    · rintro ⟨e, he, rfl, hb⟩
      rw [bodiesOf, dlookup_of_mem_nodup hkeys he]
      exact hb
    · intro hb
      rw [bodiesOf] at hb
      cases hx : dlookup G.productions v with
      | none => rw [hx] at hb; cases hb
      | some bs =>
        rw [hx] at hb
        obtain ⟨e, he, he1, he2⟩ := dlookup_some_mem hx
        exact ⟨e, he, he1, he2 ▸ hb⟩
  refine ⟨hmem, ?_, by rw [heq], by rw [heq], by rw [heq], ?_⟩
  · intro v hc
    rw [hmem] at hc
    rw [bodiesOf] at hc
    cases hx : dlookup G.productions v with
    | none => rw [hx] at hc; cases hc
    | some bs =>
      rw [hx] at hc
      obtain ⟨e, he, _, he2⟩ := dlookup_some_mem hx
      exact hnoeps e he (he2 ▸ hc)
  · intro w w'
    exact ⟨derives_congr hmem, derives_congr (fun v b => (hmem v b).symm)⟩

/-- Witness for C7: the epsilon-elimination idempotence theorem applied to the
ε-free grammar `S → ab`. -/
theorem eliminate_epsilon_idempotent_witness :
    ((G_ab.productions.map Prod.fst).Nodup ∧
      (∀ e ∈ G_ab.productions, e.1 ∈ G_ab.variables') ∧
      (∀ e ∈ G_ab.productions, [] ∉ e.2)) ∧
    ((∀ v b, b ∈ bodiesOf (eliminate_epsilon_productions (mkConverter G_ab)).1 v ↔
        b ∈ bodiesOf G_ab v) ∧
      (∀ v, [] ∉ bodiesOf (eliminate_epsilon_productions (mkConverter G_ab)).1 v) ∧
      (eliminate_epsilon_productions (mkConverter G_ab)).1.start_symbol =
        G_ab.start_symbol ∧
      (eliminate_epsilon_productions (mkConverter G_ab)).1.variables' =
        G_ab.variables' ∧
      (eliminate_epsilon_productions (mkConverter G_ab)).2 = mkConverter G_ab ∧
      ∀ w w', Derives (eliminate_epsilon_productions (mkConverter G_ab)).1 w w' ↔
        Derives G_ab w w') :=
  ⟨⟨by decide, by decide, by decide⟩,
    eliminate_epsilon_idempotent G_ab (by decide) (by decide) (by decide)⟩

/-- Witness for C10: the structure-preservation theorem applied to the
"ends in 01" DFA and its accepting/non-accepting split. -/
theorem refine_partition_preserves_partition_witness :
    ((∀ g ∈ [["q2"], ["q0", "q1", "q3"]], g ≠ []) ∧
      (∀ g ∈ [["q2"], ["q0", "q1", "q3"]], ∀ x ∈ g, x ∈ D01.states) ∧
      GroupsDisjoint [["q2"], ["q0", "q1", "q3"]]) ∧
    ((∀ g' ∈ refine_partition D01 [["q2"], ["q0", "q1", "q3"]], g' ≠ [] ∧
        ∃! g, g ∈ [["q2"], ["q0", "q1", "q3"]] ∧ ∀ x ∈ g', x ∈ g) ∧
      GroupsDisjoint (refine_partition D01 [["q2"], ["q0", "q1", "q3"]]) ∧
      (∀ x, (∃ g' ∈ refine_partition D01 [["q2"], ["q0", "q1", "q3"]], x ∈ g') ↔
        ∃ g ∈ [["q2"], ["q0", "q1", "q3"]], x ∈ g) ∧
      ∀ (D : DFA), D.final_states.Nodup →
        ∀ g ∈ minimize_partition (remove_inaccessible_states D),
          (∀ x ∈ g, x ∈ (remove_inaccessible_states D).final_states) ∨
          ∀ x ∈ g, x ∉ (remove_inaccessible_states D).final_states) :=
  ⟨⟨by decide, by decide, by unfold GroupsDisjoint; decide⟩,
    refine_partition_preserves_partition D01 [["q2"], ["q0", "q1", "q3"]]
      (by decide) (by decide) (by unfold GroupsDisjoint; decide)⟩

/-! ## C1 -/

/-- C1: the claim states that every production body of `convert_to_cnf(G)` has
length 1 (a single terminal) or length 2 (two variables), with ε only on a
synthesized start variable.  The code violates this: on the well-formed
grammar `S → ab`, the output keeps the original body `ab` (two terminals) and
contains the length-3 body `XX2` (stage 3 never removes the original non-CNF
bodies it replaces, and stage 4 then splits the two-character variable names
of the replacement body `X0X1` character by character). -/
theorem convert_to_cnf_violates_cnf_shape :
    ['a', 'b'] ∈ bodiesOf (convert_to_cnf (mkConverter G_ab)).1 "S" ∧
    charStr 'a' ∈ (convert_to_cnf (mkConverter G_ab)).1.terminals ∧
    charStr 'a' ∉ (convert_to_cnf (mkConverter G_ab)).1.variables' ∧
    ['X', 'X', '2'] ∈ bodiesOf (convert_to_cnf (mkConverter G_ab)).1 "S" ∧
    (['X', 'X', '2'] : List Char).length = 3 := by
  decide

/-! ## C3 -/

/-- C3: the claim states that unit-production elimination consumes the
epsilon-eliminated grammar, so that after the first two stages no ε-body
remains except possibly on the synthesized start variable.  The code violates
this: `convert_to_cnf` discards the grammar returned by
`eliminate_epsilon_productions` (it rebinds `cfg` and then calls
`eliminate_unit_productions`, which reads `self.cfg`, the original grammar).
On `S → B`, `B → b | ε`, the grammar after the first two stages still has
ε-bodies, on both `S` and `B`, and its start symbol is the original `S`, not
the synthesized start variable `X0`. -/
theorem stage2_keeps_epsilon_bodies :
    [] ∈ bodiesOf (stage2_grammar (mkConverter G_SB)) "S" ∧
    [] ∈ bodiesOf (stage2_grammar (mkConverter G_SB)) "B" ∧
    (stage2_grammar (mkConverter G_SB)).start_symbol = "S" ∧
    "X0" ∈ (stage2_grammar (mkConverter G_SB)).variables' := by
  decide

/-! ## C4 -/

/-- C4: the claim states that the pipelines never mutate the caller-supplied
input object.  The code violates this on the grammar side: when the start
symbol is nullable, `eliminate_epsilon_productions` executes
`self.cfg.variables.add(new_start)`, mutating the caller's grammar object in
place (the converter's `cfg` *is* the caller's grammar).  On
`S → B`, `B → b | ε`, after `convert_to_cnf` the caller's variable set has
grown by the synthesized variable `X0`. -/
theorem convert_to_cnf_mutates_input :
    (convert_to_cnf (mkConverter G_SB)).2.cfg.variables' = ["S", "B", "X0"] ∧
    G_SB.variables' = ["S", "B"] ∧
    (convert_to_cnf (mkConverter G_SB)).2.cfg.variables' ≠ G_SB.variables' := by
  decide

/-! ## C8 -/

/-- C8: the claim states that converting `S → abcd` introduces exactly 2
intermediate fresh chain variables forming the right-branching chain
`S → aX₄`, `X₄ → bX₅`, `X₅ → cd`.  The code violates this: it emits
`X4 → X4X5` instead of `X4 → bX5` (for `i ≥ 1` the chain step appends
`prev_var + next_var`, dropping the body's intermediate symbol, and
`prev_var = current_var` there), and it additionally binarizes the
terminal-replaced duplicate body `X0X1X2X3` character by character,
introducing 6 more chain variables `X6 … X11` — 8 in total rather than 2. -/
theorem convert_to_cnf_chain_shape_wrong :
    (convert_to_cnf (mkConverter G_abcd)).1.productions =
      [("S", [['a', 'X', '4'], ['X', 'X', '6']]),
       ("X0", [['a']]), ("X1", [['b']]), ("X2", [['c']]), ("X3", [['d']]),
       ("X4", [['X', '4', 'X', '5']]),
       ("X5", [['c', 'd']]),
       ("X6", [['X', '6', 'X', '7']]),
       ("X7", [['X', '7', 'X', '8']]),
       ("X8", [['X', '8', 'X', '9']]),
       ("X9", [['X', '9', 'X', '1', '0']]),
       ("X10", [['X', '1', '0', 'X', '1', '1']]),
       ("X11", [['X', '3']])] ∧
    ['b', 'X', '5'] ∉ bodiesOf (convert_to_cnf (mkConverter G_abcd)).1 "X4" ∧
    (convert_to_cnf (mkConverter G_abcd)).1.variables' =
      ["S", "X0", "X1", "X2", "X3", "X4", "X5", "X6", "X7", "X8", "X9", "X10", "X11"] := by
  decide

/-! ## C9 -/

/-- C9: the claim states that on malformed input the pipelines fail fast with
a descriptive validation error rather than returning a result.  The code
violates this: neither `CFG.__init__` nor `DFA.__init__` performs any
validation, and on an automaton whose start state `q0` is absent from
`states`, `minimize` silently returns a result automaton (whose state set is
`{q0}`). -/
theorem minimize_returns_on_malformed_input :
    minimize D_bad = ⟨["q0"], [], [], "q0", []⟩ := by
  decide

end TestPackage
